import Mathlib

/-! A verification development of `main.go` of deeplesion-gcp-loader.

The program downloads a fixed catalog of zip archives, unpacks each of them and
uploads every entry to a storage bucket, either one archive at a time (`Begin`)
or with one goroutine per archive (`BeginConcurrent`).

The embedding is shallow.  Every Go function of `main.go` becomes a value of
`Prog`, a tree of I/O operations whose continuation receives the result of the
operation.  A `World` answers every operation as a function of the operations
performed so far, so a statement quantified over all worlds covers every outcome
of the file system, the network and the storage service.  `Prog.exec` runs one
goroutine; `cstep` / `runSched` interleave several goroutines under an arbitrary
schedule and give `sync.WaitGroup` its meaning.
-/

namespace DeepLesion

/-! ## Data -/

/-- A non-nil Go `error` value.  A Go result of type `error` is `Option GoError`,
with `none` for `nil`. -/
structure GoError where
  msg : String
  deriving DecidableEq, Repr

/-- The part of `*http.Response` the program can observe: the status code and
the body stream (here its content). -/
structure Response where
  StatusCode : Nat
  Body : String
  deriving DecidableEq, Repr

/-- One `*zip.File` of `r.File`: the stored name and the position in the
container (two entries of a zip file may carry the same name). -/
structure ZipFile where
  Name : String
  index : Nat
  deriving DecidableEq, Repr

/-- The functions of `main.go` whose calls and returns are recorded in the
history. -/
inductive Fn where
  | FetchUploadAndHandleFile
  | FetchFile
  | UnzipAndUploadFiles
  deriving DecidableEq, Repr

/-- The operations a goroutine performs on its environment.  `call` and `ret`
are bookkeeping: they record that a function of `main.go` was entered or has
returned (with its `error` result). -/
inductive Op where
  /-- Go `os.Create(name)` -/
  | osCreate (name : String)
  /-- Deferred `out.Close()` -/
  | fileClose (name : String)
  /-- Go `http.Get(url)` -/
  | httpGet (url : String)
  /-- Deferred `resp.Body.Close()` -/
  | bodyClose (url : String)
  /-- Go `io.Copy(out, resp.Body)` -/
  | ioCopyToFile (name : String) (resp : Response)
  /-- Go `zip.OpenReader(name)` -/
  | zipOpenReader (name : String)
  /-- Deferred `r.Close()` -/
  | zipClose (name : String)
  /-- Go `storage.NewClient(ctx)` -/
  | storageNewClient
  /-- Go `f.Open()` -/
  | zipFileOpen (f : ZipFile)
  /-- Go `bkt.Object(key).NewWriter(ctx)` on the bucket `bucket` -/
  | newWriter (bucket key : String)
  /-- Go `io.Copy(w, imageFile)` -/
  | ioCopyToObject (bucket key : String) (f : ZipFile)
  /-- Go `w.Close()` -/
  | writerClose (bucket key : String)
  /-- Go `imageFile.Close()` -/
  | entryClose (f : ZipFile)
  /-- Go `log.Printf` / `log.Println` with the formatted message -/
  | logPrint (msg : String)
  /-- Go `fmt.Printf` with the formatted message -/
  | fmtPrint (msg : String)
  /-- Go `os.Remove(name)` -/
  | osRemove (name : String)
  /-- Go `wg.Add(1)` -/
  | wgAdd
  /-- Go `wg.Done()` -/
  | wgDone
  /-- Go `wg.Wait()` -/
  | wgWait
  /-- Go `go FetchUploadAndHandleFile(filename, url, bucketName, &wg)` -/
  | go (filename url bucketName : String)
  | call (f : Fn) (args : List String)
  | ret (f : Fn) (args : List String) (err : Option GoError)
  deriving DecidableEq, Repr

/-- The type of the result of an operation.  Results the source discards
(`Close`, `os.Remove`, logging) are `Unit`. -/
@[reducible] def Op.Resp : Op → Type
  | .osCreate _ => Option GoError
  | .httpGet _ => Except GoError Response
  | .ioCopyToFile _ _ => Option GoError
  | .zipOpenReader _ => Except GoError (List ZipFile)
  | .storageNewClient => Option GoError
  | .zipFileOpen _ => Option GoError
  | .ioCopyToObject _ _ _ => Option GoError
  | _ => Unit

/-- The environment: the result of every operation, as a function of the
operations performed before it. -/
structure World where
  respond : List Op → (o : Op) → o.Resp

/-! ## Programs -/

/-- A goroutine body: either it has returned `a`, or it performs `o` and goes on
with the result. -/
inductive Prog (α : Type) where
  | ret (a : α) : Prog α
  | op (o : Op) (k : o.Resp → Prog α) : Prog α

/-- Sequencing of programs. -/
def Prog.bind {α β : Type} : Prog α → (α → Prog β) → Prog β
  | .ret a, f => f a
  | .op o k, f => .op o (fun r => (k r).bind f)

instance : Monad Prog where
  pure := Prog.ret
  bind := Prog.bind

/-- Perform one operation and return its result. -/
def perform (o : Op) : Prog o.Resp := .op o .ret

/-- Run a program alone.  `h` is the history so far; the result is the returned
value and the operations performed, in order. -/
def Prog.exec {α : Type} (w : World) : Prog α → List Op → α × List Op
  | .ret a, _ => (a, [])
  | .op o k, h =>
    let r := (k (w.respond h o)).exec w (h ++ [o])
    (r.1, o :: r.2)

/-! ## The functions of `main.go` -/

/-- Source `FetchFile` (main.go 114-136): create the file, get the url, copy the
body.  The two deferred closes run on the return paths that follow them. -/
def FetchFile (filename url : String) : Prog (Option GoError) := do
  let err ← perform (.osCreate filename)
  match err with
  | some e => return some e
  | none =>
    let got ← perform (.httpGet url)
    match got with
    | .error e =>
      perform (.fileClose filename)
      return some e
    | .ok resp =>
      let err ← perform (.ioCopyToFile filename resp)
      match err with
      | some e =>
        perform (.bodyClose url)
        perform (.fileClose filename)
        return some e
      | none =>
        perform (.bodyClose url)
        perform (.fileClose filename)
        return none

/-- The body of the `for _, f := range r.File` loop of `UnzipAndUploadFiles`
(main.go 90-108), for the entries still to visit.  An entry that does not open
returns its error at once; a failed copy closes both streams, logs, and falls
through to the two closes that end every iteration. -/
def uploadLoop (bucketName : String) : List ZipFile → Prog (Option GoError)
  | [] => return none
  | f :: rest => do
    let err ← perform (.zipFileOpen f)
    match err with
    | some e => return some e
    | none =>
      perform (.fmtPrint ("Uploading " ++ f.Name ++ "\n"))
      perform (.newWriter bucketName f.Name)
      let err ← perform (.ioCopyToObject bucketName f.Name f)
      match err with
      | some _ =>
        perform (.writerClose bucketName f.Name)
        perform (.entryClose f)
        perform (.logPrint "error copying to gcp\n")
      | none => pure ()
      perform (.writerClose bucketName f.Name)
      perform (.entryClose f)
      uploadLoop bucketName rest

/-- Source `UnzipAndUploadFiles` (main.go 74-111). -/
def UnzipAndUploadFiles (filename bucketName : String) : Prog (Option GoError) := do
  let opened ← perform (.zipOpenReader filename)
  match opened with
  | .error e =>
    perform (.logPrint ("Unable to open zip " ++ filename ++ "\n"))
    return some e
  | .ok files =>
    let err ← perform (.storageNewClient)
    match err with
    | some e =>
      perform (.zipClose filename)
      return some e
    | none =>
      let res ← uploadLoop bucketName files
      perform (.zipClose filename)
      return res

/-- Source `FetchUploadAndHandleFile` (main.go 62-71).  `wg` is `true` for a
non-nil `*sync.WaitGroup`.  The results of `FetchFile` and of
`UnzipAndUploadFiles` are discarded, and the function returns `nil`. -/
def FetchUploadAndHandleFile (filename url bucketName : String) (wg : Bool) :
    Prog (Option GoError) := do
  perform (.call .FetchUploadAndHandleFile [filename, url, bucketName])
  perform (.logPrint ("Starting download of " ++ filename ++ "\n"))
  perform (.call .FetchFile [filename, url])
  let e1 ← FetchFile filename url
  perform (.ret .FetchFile [filename, url] e1)
  perform (.logPrint ("Download of file " ++ filename ++
    " complete, begining unzip and upload to GCP\n"))
  perform (.call .UnzipAndUploadFiles [filename, bucketName])
  let e2 ← UnzipAndUploadFiles filename bucketName
  perform (.ret .UnzipAndUploadFiles [filename, bucketName] e2)
  if wg then
    perform .wgDone
  return none

/-- Go `fmt.Sprintf("%02d", n)` for a non-negative `n`: the decimal digits of
`n`, padded on the left with `0` to a width of two. -/
def fmt02d (n : Nat) : String :=
  let s := Nat.repr n
  String.mk (List.replicate (2 - s.length) '0') ++ s

/-- The scratch file of the archive with ordinal `n`,
`fmt.Sprintf("Images_png_%02d.zip", n)` (main.go 39 and 54, with `n = i + 1`). -/
def scratchName (n : Nat) : String :=
  "Images_png_" ++ fmt02d n ++ ".zip"

/-- The loop of `Begin` (main.go 35-44) from index `i` on, over the urls still
to visit.  `resumeAt`, `removeFiles` and `bucketName` are the values of the
flags; the source writes the comparison against the flag `resumeAt` itself, the
embedding reads its value. -/
def beginLoop (resumeAt : Int) (removeFiles : Bool) (bucketName : String) :
    Nat → List String → Prog Unit
  | _, [] => return ()
  | i, url :: rest =>
    if (i : Int) + 1 < resumeAt then
      beginLoop resumeAt removeFiles bucketName (i + 1) rest
    else do
      let fn := scratchName (i + 1)
      let _ ← FetchUploadAndHandleFile fn url bucketName false
      if removeFiles then
        perform (.osRemove fn)
      beginLoop resumeAt removeFiles bucketName (i + 1) rest

/-- Source `Begin` (main.go 34-45).  `DownloadURLs` is the catalog, a package
variable declared outside `main.go`. -/
def Begin (DownloadURLs : List String) (resumeAt : Int) (removeFiles : Bool)
    (bucketName : String) : Prog Unit :=
  beginLoop resumeAt removeFiles bucketName 0 DownloadURLs

/-- The loop of `BeginConcurrent` (main.go 50-57) from index `i` on. -/
def beginConcurrentLoop (resumeAt : Int) (bucketName : String) :
    Nat → List String → Prog Unit
  | _, [] => return ()
  | i, url :: rest =>
    if (i : Int) + 1 < resumeAt then
      beginConcurrentLoop resumeAt bucketName (i + 1) rest
    else do
      let fn := scratchName (i + 1)
      perform .wgAdd
      perform (.go fn url bucketName)
      beginConcurrentLoop resumeAt bucketName (i + 1) rest

/-- Source `BeginConcurrent` (main.go 48-59). -/
def BeginConcurrent (DownloadURLs : List String) (resumeAt : Int)
    (bucketName : String) : Prog Unit := do
  beginConcurrentLoop resumeAt bucketName 0 DownloadURLs
  perform .wgWait

/-! ## Goroutines and the wait group -/

/-- A goroutine started by `go FetchUploadAndHandleFile(...)`: its arguments and
what is left of its body. -/
structure Task where
  args : List String
  body : Prog (Option GoError)

/-- The state of the concurrent program: the main goroutine, the goroutines it
has started, the counter of the `sync.WaitGroup` and the history. -/
structure CState where
  main : Prog Unit
  tasks : List Task
  counter : Int
  hist : List Op

/-- The effect of an operation on the shared state, `none` when the operation
blocks.  `wg.Add(1)` and `wg.Done()` move the counter, `wg.Wait()` passes only
when the counter is zero, and a `go` statement adds a goroutine that runs
`FetchUploadAndHandleFile` with the wait group. -/
def opEffect (o : Op) (s : CState) : Option CState :=
  match o with
  | .wgAdd => some { s with counter := s.counter + 1, hist := s.hist ++ [o] }
  | .wgDone => some { s with counter := s.counter - 1, hist := s.hist ++ [o] }
  | .wgWait => if s.counter = 0 then some { s with hist := s.hist ++ [o] } else none
  | .go fn url b =>
    some { s with
      tasks := s.tasks ++ [⟨[fn, url, b], FetchUploadAndHandleFile fn url b true⟩],
      hist := s.hist ++ [o] }
  | _ => some { s with hist := s.hist ++ [o] }

/-- One step of goroutine `t` (`0` is the main goroutine, `i + 1` the `i`-th
started one): it performs its next operation.  `none` when the goroutine has
returned, does not exist, or is blocked. -/
def cstep (w : World) (t : Nat) (s : CState) : Option CState :=
  match t with
  | 0 =>
    match s.main with
    | .ret _ => none
    | .op o k => (opEffect o s).map fun s1 => { s1 with main := k (w.respond s.hist o) }
  | i + 1 =>
    match s.tasks.get? i with
    | none => none
    | some ⟨_, .ret _⟩ => none
    | some ⟨a, .op o k⟩ =>
      (opEffect o s).map fun s1 =>
        { s1 with tasks := s1.tasks.set i ⟨a, k (w.respond s.hist o)⟩ }

/-- Run a schedule: the goroutines named in it take one step each, in that
order; a goroutine that cannot step is passed over. -/
def runSched (w : World) : List Nat → CState → CState
  | [], s => s
  | t :: ts, s => runSched w ts ((cstep w t s).getD s)

/-- The initial state of the concurrent strategy. -/
def concInit (DownloadURLs : List String) (resumeAt : Int) (bucketName : String) :
    CState :=
  { main := BeginConcurrent DownloadURLs resumeAt bucketName, tasks := [],
    counter := 0, hist := [] }

/-! ## Observations on histories -/

/-- The `(bucket, key)` of an object writer creation. -/
def writerTarget : Op → Option (String × String)
  | .newWriter b k => some (b, k)
  | _ => none

/-- The `(bucket, key)` an entry is copied to, with the entry. -/
def copyTarget : Op → Option (String × String × ZipFile)
  | .ioCopyToObject b k f => some (b, k, f)
  | _ => none

/-- The entry of an `f.Open()`. -/
def openedEntry : Op → Option ZipFile
  | .zipFileOpen f => some f
  | _ => none

/-- The message of a `log` call. -/
def logged : Op → Option String
  | .logPrint m => some m
  | _ => none

/-- The function and arguments of a recorded call. -/
def callOf : Op → Option (Fn × List String)
  | .call f args => some (f, args)
  | _ => none

/-- The file name of an `os.Remove`. -/
def removed : Op → Option String
  | .osRemove n => some n
  | _ => none

/-- A world whose results do not depend on the history, given by the result of
each of the seven operations that have one. -/
def World.fixed (create : String → Option GoError)
    (get : String → Except GoError Response)
    (copyFile : String → Response → Option GoError)
    (zipOpen : String → Except GoError (List ZipFile))
    (client : Option GoError)
    (entryOpen : ZipFile → Option GoError)
    (copyObject : ZipFile → Option GoError) : World where
  respond := fun _ o =>
    match o with
    | .osCreate n => create n
    | .httpGet u => get u
    | .ioCopyToFile n r => copyFile n r
    | .zipOpenReader n => zipOpen n
    | .storageNewClient => client
    | .zipFileOpen f => entryOpen f
    | .ioCopyToObject _ _ f => copyObject f
    | .fileClose _ => ()
    | .bodyClose _ => ()
    | .zipClose _ => ()
    | .newWriter _ _ => ()
    | .writerClose _ _ => ()
    | .entryClose _ => ()
    | .logPrint _ => ()
    | .fmtPrint _ => ()
    | .osRemove _ => ()
    | .wgAdd => ()
    | .wgDone => ()
    | .wgWait => ()
    | .go _ _ _ => ()
    | .call _ _ => ()
    | .ret _ _ _ => ()

/-- An archive of three entries. -/
def threeEntries : List ZipFile :=
  [⟨"a.png", 0⟩, ⟨"b.png", 1⟩, ⟨"c.png", 2⟩]

/-- Everything succeeds and the archive has three entries. -/
def worldAllGood : World :=
  World.fixed (fun _ => none) (fun _ => .ok ⟨200, "zip bytes"⟩) (fun _ _ => none)
    (fun _ => .ok threeEntries) none (fun _ => none) (fun _ => none)

/-- The archive has three entries and the second one does not open. -/
def worldEntryOpenFails : World :=
  World.fixed (fun _ => none) (fun _ => .ok ⟨200, "zip bytes"⟩) (fun _ _ => none)
    (fun _ => .ok threeEntries) none
    (fun f => if f.index = 1 then some ⟨"zip: checksum error"⟩ else none) (fun _ => none)

/-- The server answers `404 Not Found` with a short body; the file so written is
not a zip archive. -/
def worldNotFound : World :=
  World.fixed (fun _ => none) (fun _ => .ok ⟨404, "Not Found"⟩) (fun _ _ => none)
    (fun _ => .error ⟨"zip: not a valid zip file"⟩) none (fun _ => none) (fun _ => none)

/-- The request cannot be established. -/
def worldNoRoute : World :=
  World.fixed (fun _ => none) (fun _ => .error ⟨"dial tcp: no route to host"⟩)
    (fun _ _ => none) (fun _ => .error ⟨"zip: not a valid zip file"⟩) none
    (fun _ => none) (fun _ => none)

/-- The scratch file cannot be created (it exists from an earlier run and is
read-only); it still opens as an archive of three entries. -/
def worldCreateFails : World :=
  World.fixed (fun _ => some ⟨"open: permission denied"⟩)
    (fun _ => .ok ⟨200, "zip bytes"⟩) (fun _ _ => none)
    (fun _ => .ok threeEntries) none (fun _ => none) (fun _ => none)

/-- Operations that `FetchFile` performs. -/
def Op.isFetchIO : Op → Bool
  | .osCreate _ | .fileClose _ | .httpGet _ | .bodyClose _ | .ioCopyToFile _ _ => true
  | _ => false

/-- Operations that `UnzipAndUploadFiles` performs. -/
def Op.isUnzipIO : Op → Bool
  | .zipOpenReader _ | .zipClose _ | .storageNewClient | .zipFileOpen _ | .newWriter _ _
  | .ioCopyToObject _ _ _ | .writerClose _ _ | .entryClose _ | .fmtPrint _ | .logPrint _ => true
  | _ => false

/-- Every operation of the program, whatever the results, satisfies `P`. -/
def Prog.Forall {α : Type} (P : Op → Prop) : Prog α → Prop
  | .ret _ => True
  | .op o k => P o ∧ ∀ r, (k r).Forall P

/-- The operations of `FetchUploadAndHandleFile` up to the call of `FetchFile`. -/
def fuhHead (fn url b : String) : List Op :=
  [.call .FetchUploadAndHandleFile [fn, url, b],
    .logPrint ("Starting download of " ++ fn ++ "\n"),
    .call .FetchFile [fn, url]]

/-- The operations of `FetchUploadAndHandleFile` from the return of `FetchFile`
with `e1` to the call of `UnzipAndUploadFiles`. -/
def fuhMiddle (fn url b : String) (e1 : Option GoError) : List Op :=
  [.ret .FetchFile [fn, url] e1,
    .logPrint ("Download of file " ++ fn ++ " complete, begining unzip and upload to GCP\n"),
    .call .UnzipAndUploadFiles [fn, b]]

/-- The operations of `FetchUploadAndHandleFile` from the return of
`UnzipAndUploadFiles` with `e2` on. -/
def fuhTail (fn b : String) (e2 : Option GoError) (wg : Bool) : List Op :=
  .ret .UnzipAndUploadFiles [fn, b] e2 :: (if wg then [.wgDone] else [])

/-- The download succeeds but the file written is not a zip archive. -/
def worldBadZip : World :=
  World.fixed (fun _ => none) (fun _ => .ok ⟨200, "not a zip"⟩) (fun _ _ => none)
    (fun _ => .error ⟨"zip: not a valid zip file"⟩) none (fun _ => none) (fun _ => none)

/-- The number a list of decimal digits stands for, most significant digit
first. -/
def decimalValue (cs : List Char) : Nat :=
  cs.foldl (fun acc c => 10 * acc + (c.toNat - 48)) 0

/-- The catalog: the urls with their ordinals, counted from 1. -/
def catalog (DownloadURLs : List String) : List (Nat × String) :=
  DownloadURLs.enumFrom 1

/-- The entries of a catalog whose ordinal is at or after the resume ordinal. -/
def toProcess (resumeAt : Int) (c : List (Nat × String)) : List (Nat × String) :=
  c.filter (fun e => decide (resumeAt ≤ (e.1 : Int)))

/-- The arguments `FetchUploadAndHandleFile` is given for a catalog entry. -/
def pipelineArgs (bucketName : String) (e : Nat × String) : List String :=
  [scratchName e.1, e.2, bucketName]

/-- The three calls the pipeline of a catalog entry makes. -/
def pipelineCalls (bucketName : String) (e : Nat × String) : List (Fn × List String) :=
  [(.FetchUploadAndHandleFile, [scratchName e.1, e.2, bucketName]),
    (.FetchFile, [scratchName e.1, e.2]),
    (.UnzipAndUploadFiles, [scratchName e.1, bucketName])]

/-- The arguments of a recorded call of `FetchUploadAndHandleFile`. -/
def fuhCallOf : Op → Option (List String)
  | .call .FetchUploadAndHandleFile args => some args
  | _ => none

/-- The arguments of a `go FetchUploadAndHandleFile(...)` statement. -/
def launchOf : Op → Option (List String)
  | .go fn url b => some [fn, url, b]
  | _ => none

/-- Operations that touch neither the wait group nor the set of goroutines, and
are not the entry of `FetchUploadAndHandleFile`. -/
def Op.isLocal : Op → Bool
  | .wgAdd | .wgDone | .wgWait | .go _ _ _ | .call .FetchUploadAndHandleFile _ => false
  | _ => true

/-- The program has returned. -/
def Prog.isRet {α : Type} : Prog α → Bool
  | .ret _ => true
  | .op _ _ => false

/-- The next operation of the program is the entry of
`FetchUploadAndHandleFile`: the goroutine has not begun. -/
def Prog.atEntry {α : Type} : Prog α → Bool
  | .op (.call .FetchUploadAndHandleFile _) _ => true
  | _ => false

/-- The next operation of the program is a `go` statement: its `wg.Add(1)` is
done and the goroutine is not yet started. -/
def Prog.atGo {α : Type} : Prog α → Bool
  | .op (.go _ _ _) _ => true
  | _ => false

/-- The goroutine has returned (and so has called `wg.Done()`). -/
def Task.finished (t : Task) : Bool := t.body.isRet

/-- The goroutine has entered `FetchUploadAndHandleFile`. -/
def Task.started (t : Task) : Bool := !t.body.atEntry

/-- The number of tasks launched and not finished.  A task counts as launched
from its `wg.Add(1)`: the goroutines started and not returned, and the one whose
`go` statement is next in the main goroutine. -/
def CState.unfinished (s : CState) : Nat :=
  s.tasks.countP (fun t => !t.finished) + (if s.main.atGo then 1 else 0)

/-- On every path the program calls `wg.Done()` exactly once, returns right
after it, and before it performs local operations only. -/
def Prog.Pending {α : Type} : Prog α → Prop
  | .ret _ => False
  | .op o k =>
    if o = .wgDone then ∀ r, (k r).isRet = true
    else o.isLocal = true ∧ ∀ r, (k r).Pending

/-- What is known of a goroutine in every reachable state: it has returned, or it
is inside `FetchUploadAndHandleFile` with its `wg.Done()` ahead, or it is about to
enter it with its own arguments. -/
def Task.OK (t : Task) : Prop :=
  t.body.isRet = true ∨ t.body.Pending ∨
    ∃ k, t.body = .op (.call .FetchUploadAndHandleFile t.args) k ∧ ∀ r, (k r).Pending

/-- The main goroutine of `BeginConcurrent` at the head of its loop, at index
`i` with `urls` to visit. -/
def mainAt (resumeAt : Int) (bucketName : String) (i : Nat) (urls : List String) :
    Prog Unit := do
  beginConcurrentLoop resumeAt bucketName i urls
  perform .wgWait

/-- The argument lists of the launches still to come at index `i`. -/
def launchesFrom (resumeAt : Int) (bucketName : String) (i : Nat) (urls : List String) :
    List (List String) :=
  (toProcess resumeAt (urls.enumFrom (i + 1))).map (pipelineArgs bucketName)

/-- Where the main goroutine of `BeginConcurrent` can be, and what it has
launched by then: at the head of the loop (or at `wg.Wait()`), between a
`wg.Add(1)` and its `go` statement, or returned, in which case it has launched
every entry at or after the resume ordinal and all the goroutines have
returned. -/
def MainOK (DownloadURLs : List String) (resumeAt : Int) (bucketName : String)
    (main : Prog Unit) (tasks : List Task) : Prop :=
  (∃ i rest, main = mainAt resumeAt bucketName i rest ∧
    tasks.map Task.args ++ launchesFrom resumeAt bucketName i rest
      = launchesFrom resumeAt bucketName 0 DownloadURLs) ∨
  (∃ (i : Nat) (url : String) (rest : List String), ¬ (i : Int) + 1 < resumeAt ∧
    main = .op (.go (scratchName (i + 1)) url bucketName)
      (fun _ => mainAt resumeAt bucketName (i + 1) rest) ∧
    tasks.map Task.args ++ launchesFrom resumeAt bucketName i (url :: rest)
      = launchesFrom resumeAt bucketName 0 DownloadURLs) ∨
  (main = .ret () ∧
    tasks.map Task.args = launchesFrom resumeAt bucketName 0 DownloadURLs ∧
    ∀ t ∈ tasks, t.finished = true)

/-- The invariant of the concurrent strategy. -/
structure Inv (DownloadURLs : List String) (resumeAt : Int) (bucketName : String)
    (s : CState) : Prop where
  tasksOK : ∀ t ∈ s.tasks, t.OK
  counter : s.counter = (s.unfinished : Int)
  calls : (s.hist.filterMap fuhCallOf).Perm ((s.tasks.filter Task.started).map Task.args)
  launches : s.hist.filterMap launchOf = s.tasks.map Task.args
  adds : s.hist.count .wgAdd = s.tasks.length + (if s.main.atGo then 1 else 0)
  dones : s.hist.count .wgDone = s.tasks.countP Task.finished
  main : MainOK DownloadURLs resumeAt bucketName s.main s.tasks

/-- Operations on the wait group and `go` statements. -/
def Op.isSync : Op → Bool
  | .wgAdd | .wgDone | .wgWait | .go _ _ _ => true
  | _ => false

/-- A schedule for two goroutines: the main goroutine launches both, the two run
in turns until they have returned, and the main goroutine passes the barrier. -/
def twoTaskSchedule : List Nat :=
  [0, 0, 0, 0] ++ (List.replicate 15 [1, 2]).flatten ++ [0]

/-- Where the sequential strategy is in the pipeline of an archive: between two
archives, inside `FetchFile` for a scratch file, between the return of
`FetchFile` and the call of `UnzipAndUploadFiles`, or inside
`UnzipAndUploadFiles`. -/
inductive Phase where
  | idle
  | fetching (filename : String)
  | fetched (filename : String)
  | unzipping (filename : String)
  deriving DecidableEq, Repr

/-- The phase after one more operation, `none` when the operation is out of
turn.  `FetchFile` may be called only between two archives; it returns, for the
same file, only while it runs; `UnzipAndUploadFiles` may be called only for the
file whose `FetchFile` has returned, and returns only while it runs.  The file
and network operations of `FetchFile` occur only inside `FetchFile`, the archive
and bucket operations only inside `UnzipAndUploadFiles`, and `os.Remove` and the
entry of `FetchUploadAndHandleFile` only between two archives. -/
def phaseStep (p : Phase) (o : Op) : Option Phase :=
  match o with
  | .call .FetchFile args =>
    match p, args with
    | .idle, fn :: _ => some (.fetching fn)
    | _, _ => none
  | .ret .FetchFile args _ =>
    match p with
    | .fetching fn => if args.head? = some fn then some (.fetched fn) else none
    | _ => none
  | .call .UnzipAndUploadFiles args =>
    match p with
    | .fetched fn => if args.head? = some fn then some (.unzipping fn) else none
    | _ => none
  | .ret .UnzipAndUploadFiles args _ =>
    match p with
    | .unzipping fn => if args.head? = some fn then some .idle else none
    | _ => none
  | .call .FetchUploadAndHandleFile _ =>
    match p with
    | .idle => some .idle
    | _ => none
  | .osRemove _ =>
    match p with
    | .idle => some .idle
    | _ => none
  | .logPrint _ => some p
  | o =>
    if o.isFetchIO then
      match p with
      | .fetching fn => some (.fetching fn)
      | _ => none
    else if o.isUnzipIO then
      match p with
      | .unzipping fn => some (.unzipping fn)
      | _ => none
    else some p

/-- The phase after a history, `none` when some operation of it is out of
turn. -/
def runPhases : Phase → List Op → Option Phase
  | p, [] => some p
  | p, o :: os => (phaseStep p o).bind fun q => runPhases q os

/-- The file of a recorded call of `UnzipAndUploadFiles`. -/
def unzipCallOf : Op → Option (List String)
  | .call .UnzipAndUploadFiles args => some args
  | _ => none

/-- The file of a recorded return of `UnzipAndUploadFiles`. -/
def unzipRetOf : Op → Option (List String)
  | .ret .UnzipAndUploadFiles args _ => some args
  | _ => none

/-- One when the pipeline is inside `UnzipAndUploadFiles`, zero otherwise. -/
def Phase.inUnzip : Phase → Nat
  | .unzipping _ => 1
  | _ => 0

/-- The archive opens with three entries, every entry opens, and the storage
client cannot be created. -/
def worldClientFails : World :=
  World.fixed (fun _ => none) (fun _ => .ok ⟨200, "zip bytes"⟩) (fun _ _ => none)
    (fun _ => .ok threeEntries) (some ⟨"storage: could not find default credentials"⟩)
    (fun _ => none) (fun _ => none)

/-- A result for every operation: the one a program is followed along when only
the calls it records are of interest. -/
def Op.defaultResp : (o : Op) → o.Resp
  | .osCreate _ => none
  | .httpGet _ => .error ⟨""⟩
  | .ioCopyToFile _ _ => none
  | .zipOpenReader _ => .error ⟨""⟩
  | .storageNewClient => none
  | .zipFileOpen _ => none
  | .ioCopyToObject _ _ _ => none
  | .fileClose _ => ()
  | .bodyClose _ => ()
  | .zipClose _ => ()
  | .newWriter _ _ => ()
  | .writerClose _ _ => ()
  | .entryClose _ => ()
  | .logPrint _ => ()
  | .fmtPrint _ => ()
  | .osRemove _ => ()
  | .wgAdd => ()
  | .wgDone => ()
  | .wgWait => ()
  | .go _ _ _ => ()
  | .call _ _ => ()
  | .ret _ _ _ => ()

/-- The calls the program records when every operation gets its default
result. -/
def Prog.callsAlong {α : Type} : Prog α → List (Fn × List String)
  | .ret _ => []
  | .op o k => (callOf o).toList ++ (k o.defaultResp).callsAlong

/-- On every path the calls the program records are `cs`, in that order. -/
def Prog.CallsAhead {α : Type} : List (Fn × List String) → Prog α → Prop
  | cs, .ret _ => cs = []
  | cs, .op o k => ∃ rest, cs = (callOf o).toList ++ rest ∧ ∀ r, (k r).CallsAhead rest

/-- The three calls of the pipeline started with the arguments
`[filename, url, bucketName]`. -/
def callsOfArgs : List String → List (Fn × List String)
  | [fn, url, b] =>
    [(.FetchUploadAndHandleFile, [fn, url, b]), (.FetchFile, [fn, url]),
      (.UnzipAndUploadFiles, [fn, b])]
  | _ => []

/-- The calls made and the calls still ahead are together the calls of the
pipelines of the goroutines started, and every goroutine records the same calls
on every path. -/
structure CallsInv (s : CState) : Prop where
  mainAhead : s.main.CallsAhead s.main.callsAlong
  tasksAhead : ∀ t ∈ s.tasks, t.body.CallsAhead t.body.callsAlong
  calls :
    (s.hist.filterMap callOf ++ s.main.callsAlong ++
      s.tasks.flatMap (fun t => t.body.callsAlong)).Perm
        (s.tasks.flatMap (fun t => callsOfArgs t.args))

/-- Operations that block or start a goroutine. -/
def Op.blocksOrSpawns : Op → Bool
  | .wgWait | .go _ _ _ => true
  | _ => false

/-! ## Running programs: general facts -/

@[simp] theorem exec_pure {α : Type} (w : World) (a : α) (h : List Op) :
    (pure a : Prog α).exec w h = (a, []) := rfl

@[simp] theorem exec_ret {α : Type} (w : World) (a : α) (h : List Op) :
    (Prog.ret a : Prog α).exec w h = (a, []) := rfl

@[simp] theorem prog_pure_bind {α β : Type} (a : α) (f : α → Prog β) :
    (pure a >>= f) = f a := rfl

theorem exec_bind {α β : Type} (w : World) (p : Prog α) (f : α → Prog β) (h : List Op) :
    (p >>= f).exec w h =
      (((f (p.exec w h).1).exec w (h ++ (p.exec w h).2)).1,
        (p.exec w h).2 ++ ((f (p.exec w h).1).exec w (h ++ (p.exec w h).2)).2) := by
  induction p generalizing h with
  | ret a => simp [Bind.bind, Prog.bind, Prog.exec]
  | op o k ih =>
    have := ih (w.respond h o) (h ++ [o])
    simp only [Bind.bind] at this
    simp [Bind.bind, Prog.bind, Prog.exec, this]

@[simp] theorem exec_perform_bind {β : Type} (w : World) (o : Op) (f : o.Resp → Prog β)
    (h : List Op) :
    (perform o >>= f).exec w h =
      (((f (w.respond h o)).exec w (h ++ [o])).1,
        o :: ((f (w.respond h o)).exec w (h ++ [o])).2) := by
  simp [perform, Bind.bind, Prog.bind, Prog.exec]

@[simp] theorem exec_perform (w : World) (o : Op) (h : List Op) :
    (perform o).exec w h = (w.respond h o, [o]) := by
  simp [perform, Prog.exec]

@[simp] theorem forall_pure {α : Type} (P : Op → Prop) (a : α) :
    (pure a : Prog α).Forall P := trivial

@[simp] theorem forall_ret {α : Type} (P : Op → Prop) (a : α) :
    (Prog.ret a : Prog α).Forall P := trivial

@[simp] theorem forall_perform_bind {β : Type} (P : Op → Prop) (o : Op)
    (f : o.Resp → Prog β) :
    (perform o >>= f).Forall P ↔ P o ∧ ∀ r, (f r).Forall P := by
  simp [perform, Bind.bind, Prog.bind, Prog.Forall]

@[simp] theorem forall_perform (P : Op → Prop) (o : Op) :
    (perform o).Forall P ↔ P o := by
  simp [perform, Prog.Forall]

theorem forall_bind {α β : Type} (P : Op → Prop) (p : Prog α) (f : α → Prog β)
    (hp : p.Forall P) (hf : ∀ a, (f a).Forall P) : (p >>= f).Forall P := by
  induction p with
  | ret a => exact hf a
  | op o k ih =>
    exact ⟨hp.1, fun r => ih r (hp.2 r)⟩

theorem forall_mono {α : Type} (P Q : Op → Prop) (hPQ : ∀ o, P o → Q o) (p : Prog α)
    (hp : p.Forall P) : p.Forall Q := by
  induction p with
  | ret a => trivial
  | op o k ih => exact ⟨hPQ o hp.1, fun r => ih r (hp.2 r)⟩

theorem exec_forall {α : Type} (P : Op → Prop) (w : World) (p : Prog α)
    (hp : p.Forall P) (h : List Op) : ∀ o ∈ (p.exec w h).2, P o := by
  induction p generalizing h with
  | ret a => simp
  | op o k ih =>
    intro x hx
    simp only [Prog.exec, List.mem_cons] at hx
    rcases hx with rfl | hx
    · exact hp.1
    · exact ih _ (hp.2 _) _ x hx

theorem filterMap_nil_of_forall {α : Type} (f : Op → Option α) (l : List Op)
    (hl : ∀ o ∈ l, f o = none) : l.filterMap f = [] := by
  induction l with
  | nil => rfl
  | cons a t ih =>
    have ha := hl a (List.mem_cons_self _ _)
    simp [List.filterMap_cons, ha, ih (fun o ho => hl o (List.mem_cons_of_mem _ ho))]

/-! ## `FetchFile` -/

theorem fetchFile_forall (fn url : String) :
    (FetchFile fn url).Forall (fun o => o.isFetchIO = true) := by
  simp only [FetchFile, forall_perform_bind]
  refine ⟨rfl, fun r => ?_⟩
  cases r with
  | some e => simp
  | none =>
    simp only [forall_perform_bind]
    refine ⟨rfl, fun r => ?_⟩
    cases r with
    | error e => simp [Op.isFetchIO]
    | ok resp =>
      simp only [forall_perform_bind]
      refine ⟨rfl, fun r => ?_⟩
      cases r <;> simp [Op.isFetchIO]

/-! ## `UnzipAndUploadFiles` -/

theorem uploadLoop_forall (b : String) (files : List ZipFile) :
    (uploadLoop b files).Forall (fun o => o.isUnzipIO = true) := by
  induction files with
  | nil => simp [uploadLoop]
  | cons f rest ih =>
    simp only [uploadLoop, forall_perform_bind]
    refine ⟨rfl, fun r => ?_⟩
    cases r with
    | some e => simp
    | none =>
      simp only [forall_perform_bind]
      refine ⟨rfl, fun _ => ⟨rfl, fun _ => ⟨rfl, fun r => ?_⟩⟩⟩
      cases r <;> simp only [forall_perform_bind, prog_pure_bind, ih] <;> simp [Op.isUnzipIO]

theorem unzip_forall (fn b : String) :
    (UnzipAndUploadFiles fn b).Forall (fun o => o.isUnzipIO = true) := by
  simp only [UnzipAndUploadFiles, forall_perform_bind]
  refine ⟨rfl, fun r => ?_⟩
  cases r with
  | error e => simp [Op.isUnzipIO]
  | ok files =>
    simp only [forall_perform_bind]
    refine ⟨rfl, fun r => ?_⟩
    cases r with
    | some e => simp [Op.isUnzipIO]
    | none =>
      refine forall_bind _ _ _ (uploadLoop_forall b files) (fun a => ?_)
      simp [Op.isUnzipIO]


/-- When every entry opens, the upload loop returns `nil`, creates one object
writer per entry, in the order of the entries, and copies each entry to the key
that is its name. -/
theorem uploadLoop_exec (w : World) (b : String) (files : List ZipFile)
    (hopen : ∀ h f, f ∈ files → w.respond h (.zipFileOpen f) = none) (h : List Op) :
    ((uploadLoop b files).exec w h).1 = none ∧
    ((uploadLoop b files).exec w h).2.filterMap writerTarget
      = files.map (fun f => (b, f.Name)) ∧
    ((uploadLoop b files).exec w h).2.filterMap copyTarget
      = files.map (fun f => (b, f.Name, f)) := by
  induction files generalizing h with
  | nil => simp [uploadLoop]
  | cons f rest ih =>
    have hrest : ∀ h g, g ∈ rest → w.respond h (.zipFileOpen g) = none :=
      fun h g hg => hopen h g (List.mem_cons_of_mem _ hg)
    have hf := hopen h f (List.mem_cons_self _ _)
    simp only [uploadLoop, exec_perform_bind, hf]
    split <;> simp [writerTarget, copyTarget, ih hrest]

/-- The result and the history of `UnzipAndUploadFiles` when the container and
the storage client open. -/
theorem unzip_exec_opened (w : World) (h : List Op) (filename b : String)
    (files : List ZipFile)
    (hzip : w.respond h (.zipOpenReader filename) = .ok files)
    (hclient : w.respond (h ++ [.zipOpenReader filename]) .storageNewClient = none) :
    (UnzipAndUploadFiles filename b).exec w h =
      (((uploadLoop b files).exec w
          (h ++ [.zipOpenReader filename, .storageNewClient])).1,
        .zipOpenReader filename :: .storageNewClient ::
          (((uploadLoop b files).exec w
            (h ++ [.zipOpenReader filename, .storageNewClient])).2
            ++ [.zipClose filename])) := by
  simp [UnzipAndUploadFiles, hzip, hclient, exec_bind]

/-- C8, as the code has it.  When the container opens, the storage client opens
and every entry opens, the object writers `UnzipAndUploadFiles` creates, and the
copies it makes, are those of the entries of the container, in the order of the
container, each once, each under the key that is the stored name of the entry,
all in the bucket `bucketName`. -/
theorem C8_keys_are_the_entry_names_in_order (w : World) (h : List Op)
    (filename bucketName : String) (files : List ZipFile)
    (hzip : w.respond h (.zipOpenReader filename) = .ok files)
    (hclient : w.respond (h ++ [.zipOpenReader filename]) .storageNewClient = none)
    (hopen : ∀ h1 f, f ∈ files → w.respond h1 (.zipFileOpen f) = none) :
    ((UnzipAndUploadFiles filename bucketName).exec w h).2.filterMap writerTarget
      = files.map (fun f => (bucketName, f.Name)) ∧
    ((UnzipAndUploadFiles filename bucketName).exec w h).2.filterMap copyTarget
      = files.map (fun f => (bucketName, f.Name, f)) := by
  have hl := uploadLoop_exec w bucketName files hopen
    (h ++ [.zipOpenReader filename, .storageNewClient])
  rw [unzip_exec_opened w h filename bucketName files hzip hclient]
  refine ⟨?_, ?_⟩
  · simp [writerTarget, hl.2.1]
  · simp [copyTarget, hl.2.2]

/-- C8, as the code has it, at an archive of three entries: the keys are `a.png`,
`b.png`, `c.png`. -/
theorem C8_keys_are_the_entry_names_in_order_witness :
    ((UnzipAndUploadFiles "Images_png_01.zip" "bkt").exec worldAllGood []).2.filterMap
        writerTarget = [("bkt", "a.png"), ("bkt", "b.png"), ("bkt", "c.png")] ∧
    ((UnzipAndUploadFiles "Images_png_01.zip" "bkt").exec worldAllGood []).2.filterMap
        copyTarget = threeEntries.map (fun f => ("bkt", f.Name, f)) :=
  C8_keys_are_the_entry_names_in_order worldAllGood [] "Images_png_01.zip" "bkt"
    threeEntries rfl rfl (fun _ _ _ => rfl)

/-- C8 as stated fails.  The archive opens with the three entries `a.png`,
`b.png`, `c.png` and each of them opens, but `storage.NewClient` fails:
`UnzipAndUploadFiles` returns that error after closing the archive and writes to
no key at all. -/
theorem C8_no_key_written_when_client_fails_counterexample :
    worldClientFails.respond [] (.zipOpenReader "Images_png_01.zip") = .ok threeEntries ∧
    (∀ (h : List Op) (f : ZipFile), worldClientFails.respond h (.zipFileOpen f) = none) ∧
    (UnzipAndUploadFiles "Images_png_01.zip" "bkt").exec worldClientFails [] =
      (some ⟨"storage: could not find default credentials"⟩,
        [.zipOpenReader "Images_png_01.zip", .storageNewClient,
          .zipClose "Images_png_01.zip"]) ∧
    ((UnzipAndUploadFiles "Images_png_01.zip" "bkt").exec worldClientFails []).2.filterMap
        writerTarget ≠ threeEntries.map (fun f => ("bkt", f.Name)) :=
  ⟨rfl, fun _ _ => rfl, by decide, by decide⟩

/-- When the entries before `f` open and `f` does not, the upload loop returns
the error of `f.Open()`; it has opened the entries up to `f` and created writers
for the entries before `f` only. -/
theorem uploadLoop_exec_open_fails (w : World) (b : String) (pre : List ZipFile)
    (f : ZipFile) (post : List ZipFile) (e : GoError)
    (hpre : ∀ h g, g ∈ pre → w.respond h (.zipFileOpen g) = none)
    (hf : ∀ h, w.respond h (.zipFileOpen f) = some e) (h : List Op) :
    ((uploadLoop b (pre ++ f :: post)).exec w h).1 = some e ∧
    ((uploadLoop b (pre ++ f :: post)).exec w h).2.filterMap writerTarget
      = pre.map (fun g => (b, g.Name)) ∧
    ((uploadLoop b (pre ++ f :: post)).exec w h).2.filterMap openedEntry = pre ++ [f] := by
  induction pre generalizing h with
  | nil => simp [uploadLoop, hf, writerTarget, openedEntry]
  | cons g rest ih =>
    have hrest : ∀ h k, k ∈ rest → w.respond h (.zipFileOpen k) = none :=
      fun h k hk => hpre h k (List.mem_cons_of_mem _ hk)
    have hg := hpre h g (List.mem_cons_self _ _)
    simp only [List.cons_append, uploadLoop, exec_perform_bind, hg]
    split <;> simp [writerTarget, openedEntry, ih hrest]

/-- The only message the upload loop logs is that of a failed copy. -/
theorem uploadLoop_logs (b : String) (files : List ZipFile) :
    (uploadLoop b files).Forall
      (fun o => ∀ m, o = .logPrint m → m = "error copying to gcp\n") := by
  induction files with
  | nil => simp [uploadLoop]
  | cons f rest ih =>
    simp only [uploadLoop, forall_perform_bind]
    refine ⟨by simp, fun r => ?_⟩
    cases r with
    | some e => simp
    | none =>
      simp only [forall_perform_bind]
      refine ⟨by simp, fun _ => ⟨by simp, fun _ => ⟨by simp, fun r => ?_⟩⟩⟩
      cases r <;> simp only [forall_perform_bind, prog_pure_bind, ih] <;> simp

/-- C6, as the code has it.  In `UnzipAndUploadFiles`, when the container and the
storage client open, the entries before `f` open and `f.Open()` fails with `e`,
the function returns `e` at once: the entries opened are those up to `f`, the
entries after `f` are not opened, object writers are created for the entries
before `f` only, and the failure is not logged (the only message the function
can have logged is that of a failed copy). -/
theorem C6_entry_open_failure_ends_the_archive (w : World) (h : List Op)
    (filename bucketName : String) (before : List ZipFile) (f : ZipFile)
    (after : List ZipFile) (e : GoError)
    (hzip : w.respond h (.zipOpenReader filename) = .ok (before ++ f :: after))
    (hclient : w.respond (h ++ [.zipOpenReader filename]) .storageNewClient = none)
    (hbefore : ∀ h1 g, g ∈ before → w.respond h1 (.zipFileOpen g) = none)
    (hf : ∀ h1, w.respond h1 (.zipFileOpen f) = some e) :
    ((UnzipAndUploadFiles filename bucketName).exec w h).1 = some e ∧
    ((UnzipAndUploadFiles filename bucketName).exec w h).2.filterMap openedEntry
      = before ++ [f] ∧
    ((UnzipAndUploadFiles filename bucketName).exec w h).2.filterMap writerTarget
      = before.map (fun g => (bucketName, g.Name)) ∧
    ∀ m, .logPrint m ∈ ((UnzipAndUploadFiles filename bucketName).exec w h).2 →
      m = "error copying to gcp\n" := by
  have hl := uploadLoop_exec_open_fails w bucketName before f after e hbefore hf
    (h ++ [.zipOpenReader filename, .storageNewClient])
  have hlog := exec_forall _ w _ (uploadLoop_logs bucketName (before ++ f :: after))
    (h ++ [.zipOpenReader filename, .storageNewClient])
  rw [unzip_exec_opened w h filename bucketName _ hzip hclient]
  refine ⟨hl.1, ?_, ?_, ?_⟩
  · simp [openedEntry, hl.2.2]
  · simp [writerTarget, hl.2.1]
  · intro m hm
    simp only [List.mem_cons, List.mem_append, List.mem_singleton] at hm
    rcases hm with hm | hm | hm | hm | hm
    · cases hm
    · cases hm
    · exact hlog _ hm m rfl
    · cases hm
    · cases hm

/-- C6, as the code has it, at an archive of three entries whose second entry
does not open: only the first entry gets a writer. -/
theorem C6_entry_open_failure_ends_the_archive_witness :
    ((UnzipAndUploadFiles "Images_png_01.zip" "bkt").exec worldEntryOpenFails []).1
      = some ⟨"zip: checksum error"⟩ ∧
    ((UnzipAndUploadFiles "Images_png_01.zip" "bkt").exec worldEntryOpenFails []).2.filterMap
      openedEntry = [⟨"a.png", 0⟩] ++ [⟨"b.png", 1⟩] ∧
    ((UnzipAndUploadFiles "Images_png_01.zip" "bkt").exec worldEntryOpenFails []).2.filterMap
      writerTarget = [("bkt", "a.png")] ∧
    ∀ m, .logPrint m ∈ ((UnzipAndUploadFiles "Images_png_01.zip" "bkt").exec
      worldEntryOpenFails []).2 → m = "error copying to gcp\n" :=
  C6_entry_open_failure_ends_the_archive worldEntryOpenFails [] "Images_png_01.zip" "bkt"
    [⟨"a.png", 0⟩] ⟨"b.png", 1⟩ [⟨"c.png", 2⟩] ⟨"zip: checksum error"⟩ rfl rfl
    (fun _ g hg => by
      rw [List.mem_singleton] at hg
      subst hg
      rfl)
    (fun _ => rfl)

/-- C6 as stated fails.  The archive opens with the three entries `a.png`,
`b.png`, `c.png`; opening `b.png` fails.  `UnzipAndUploadFiles` returns that
error after ten operations: `c.png` is neither opened nor uploaded, and nothing
is logged. -/
theorem C6_later_entries_are_not_opened_counterexample :
    worldEntryOpenFails.respond [] (.zipOpenReader "Images_png_01.zip") = .ok threeEntries ∧
    (UnzipAndUploadFiles "Images_png_01.zip" "bkt").exec worldEntryOpenFails [] =
      (some ⟨"zip: checksum error"⟩,
        [.zipOpenReader "Images_png_01.zip", .storageNewClient,
          .zipFileOpen ⟨"a.png", 0⟩, .fmtPrint "Uploading a.png\n", .newWriter "bkt" "a.png",
          .ioCopyToObject "bkt" "a.png" ⟨"a.png", 0⟩, .writerClose "bkt" "a.png",
          .entryClose ⟨"a.png", 0⟩,
          .zipFileOpen ⟨"b.png", 1⟩,
          .zipClose "Images_png_01.zip"]) :=
  ⟨rfl, by decide⟩

/-! ## `FetchUploadAndHandleFile` and `Begin` -/

/-- The history of `FetchUploadAndHandleFile`: the head, the history of
`FetchFile`, the middle with the result of `FetchFile`, the history of
`UnzipAndUploadFiles`, and the tail with its result.  The function returns
`nil`. -/
theorem fuh_exec (w : World) (h : List Op) (fn url b : String) (wg : Bool) :
    (FetchUploadAndHandleFile fn url b wg).exec w h =
      (none,
        fuhHead fn url b ++
        ((FetchFile fn url).exec w (h ++ fuhHead fn url b)).2 ++
        fuhMiddle fn url b ((FetchFile fn url).exec w (h ++ fuhHead fn url b)).1 ++
        ((UnzipAndUploadFiles fn b).exec w
          (h ++ fuhHead fn url b ++ ((FetchFile fn url).exec w (h ++ fuhHead fn url b)).2 ++
            fuhMiddle fn url b ((FetchFile fn url).exec w (h ++ fuhHead fn url b)).1)).2 ++
        fuhTail fn b ((UnzipAndUploadFiles fn b).exec w
          (h ++ fuhHead fn url b ++ ((FetchFile fn url).exec w (h ++ fuhHead fn url b)).2 ++
            fuhMiddle fn url b ((FetchFile fn url).exec w (h ++ fuhHead fn url b)).1)).1 wg) := by
  cases wg <;> simp [FetchUploadAndHandleFile, exec_bind, fuhHead, fuhMiddle, fuhTail]

theorem beginLoop_skip (r : Int) (rm : Bool) (b : String)
    (i : Nat) (url : String) (rest : List String) (hr : (i : Int) + 1 < r) :
    beginLoop r rm b i (url :: rest) = beginLoop r rm b (i + 1) rest := by
  simp [beginLoop, hr]

/-- One iteration of the loop of `Begin` that is not skipped: the history of
`FetchUploadAndHandleFile`, the removal when the flag is set, and the rest of the
loop. -/
theorem beginLoop_cons_exec (w : World) (h : List Op) (r : Int) (rm : Bool) (b : String)
    (i : Nat) (url : String) (rest : List String) (hr : ¬ (i : Int) + 1 < r) :
    ((beginLoop r rm b i (url :: rest)).exec w h).2 =
      ((FetchUploadAndHandleFile (scratchName (i + 1)) url b false).exec w h).2 ++
      (if rm then [.osRemove (scratchName (i + 1))] else []) ++
      ((beginLoop r rm b (i + 1) rest).exec w
        (h ++ ((FetchUploadAndHandleFile (scratchName (i + 1)) url b false).exec w h).2 ++
          (if rm then [.osRemove (scratchName (i + 1))] else []))).2 := by
  cases rm <;> simp [beginLoop, hr, exec_bind]

/-- The calls recorded in the history of `FetchFile`: none. -/
theorem fetchFile_calls (w : World) (h : List Op) (fn url : String) :
    ((FetchFile fn url).exec w h).2.filterMap callOf = [] := by
  apply filterMap_nil_of_forall
  intro o ho
  have := exec_forall _ w _ (fetchFile_forall fn url) h o ho
  cases o <;> simp_all [Op.isFetchIO, callOf]

/-- The calls recorded in the history of `UnzipAndUploadFiles`: none. -/
theorem unzip_calls (w : World) (h : List Op) (fn b : String) :
    ((UnzipAndUploadFiles fn b).exec w h).2.filterMap callOf = [] := by
  apply filterMap_nil_of_forall
  intro o ho
  have := exec_forall _ w _ (unzip_forall fn b) h o ho
  cases o <;> simp_all [Op.isUnzipIO, callOf]

/-- The calls recorded in the history of `FetchUploadAndHandleFile`. -/
theorem fuh_calls (w : World) (h : List Op) (fn url b : String) (wg : Bool) :
    ((FetchUploadAndHandleFile fn url b wg).exec w h).2.filterMap callOf =
      [(.FetchUploadAndHandleFile, [fn, url, b]), (.FetchFile, [fn, url]),
        (.UnzipAndUploadFiles, [fn, b])] := by
  rw [fuh_exec]
  cases wg <;>
    simp [List.filterMap_append, fetchFile_calls, unzip_calls, fuhHead, fuhMiddle, fuhTail,
      callOf]

/-- The object writers created in the history of `FetchFile`: none. -/
theorem fetchFile_writers (w : World) (h : List Op) (fn url : String) :
    ((FetchFile fn url).exec w h).2.filterMap writerTarget = [] := by
  apply filterMap_nil_of_forall
  intro o ho
  have := exec_forall _ w _ (fetchFile_forall fn url) h o ho
  cases o <;> simp_all [Op.isFetchIO, writerTarget]

/-- C5, as the code has it.  `FetchUploadAndHandleFile` discards the result of
`FetchFile`: whatever `FetchFile` returns (`nil` or an error), the function goes
on to log, calls `UnzipAndUploadFiles` once, right after, and returns `nil`.  Its
history is its head, the history of `FetchFile`, the return of `FetchFile` with
its result, the log line and the call of `UnzipAndUploadFiles`, the history of
that call, and its return.  So the entries of the archive are still processed
after a failed fetch: whenever the file opens as an archive, the storage client
opens and the entries open, a writer is created for every entry. -/
theorem C5_fetch_result_is_discarded (w : World) (h : List Op)
    (filename url bucketName : String) (wg : Bool) :
    ((FetchUploadAndHandleFile filename url bucketName wg).exec w h).1 = none ∧
    ((FetchUploadAndHandleFile filename url bucketName wg).exec w h).2.filterMap callOf =
      [(.FetchUploadAndHandleFile, [filename, url, bucketName]),
        (.FetchFile, [filename, url]),
        (.UnzipAndUploadFiles, [filename, bucketName])] ∧
    ((FetchUploadAndHandleFile filename url bucketName wg).exec w h).2 =
      fuhHead filename url bucketName ++
      ((FetchFile filename url).exec w (h ++ fuhHead filename url bucketName)).2 ++
      [.ret .FetchFile [filename, url]
          ((FetchFile filename url).exec w (h ++ fuhHead filename url bucketName)).1,
        .logPrint ("Download of file " ++ filename ++
          " complete, begining unzip and upload to GCP\n"),
        .call .UnzipAndUploadFiles [filename, bucketName]] ++
      ((UnzipAndUploadFiles filename bucketName).exec w
        (h ++ fuhHead filename url bucketName ++
          ((FetchFile filename url).exec w (h ++ fuhHead filename url bucketName)).2 ++
          fuhMiddle filename url bucketName
            ((FetchFile filename url).exec w (h ++ fuhHead filename url bucketName)).1)).2 ++
      fuhTail filename bucketName
        ((UnzipAndUploadFiles filename bucketName).exec w
          (h ++ fuhHead filename url bucketName ++
            ((FetchFile filename url).exec w (h ++ fuhHead filename url bucketName)).2 ++
            fuhMiddle filename url bucketName
              ((FetchFile filename url).exec w
                (h ++ fuhHead filename url bucketName)).1)).1 wg ∧
    (∀ files : List ZipFile,
      (∀ h1, w.respond h1 (.zipOpenReader filename) = .ok files) →
      (∀ h1, w.respond h1 .storageNewClient = none) →
      (∀ h1 f, f ∈ files → w.respond h1 (.zipFileOpen f) = none) →
      ((FetchUploadAndHandleFile filename url bucketName wg).exec w h).2.filterMap
          writerTarget = files.map (fun f => (bucketName, f.Name))) := by
  refine ⟨by rw [fuh_exec], fuh_calls w h filename url bucketName wg, ?_, ?_⟩
  · rw [fuh_exec]
    rfl
  · intro files hzip hclient hopen
    rw [fuh_exec]
    have hF := fetchFile_writers w (h ++ fuhHead filename url bucketName) filename url
    generalize (FetchFile filename url).exec w (h ++ fuhHead filename url bucketName) = F
      at hF ⊢
    have hU : ∀ h1, ((UnzipAndUploadFiles filename bucketName).exec w h1).2.filterMap
        writerTarget = files.map (fun f => (bucketName, f.Name)) := by
      intro h1
      rw [unzip_exec_opened w h1 filename bucketName files (hzip h1) (hclient _)]
      simp [writerTarget, (uploadLoop_exec w bucketName files hopen _).2.1]
    cases wg <;>
      simp [List.filterMap_append, hU, hF, fuhHead, fuhMiddle, fuhTail, writerTarget]

/-- C5, as the code has it, where the scratch file cannot be created and the file
of an earlier run opens as an archive of three entries: `FetchFile` fails, and
the three entries are uploaded. -/
theorem C5_fetch_result_is_discarded_witness :
    ((FetchUploadAndHandleFile "Images_png_01.zip" "http://host/a.zip" "bkt" false).exec
        worldCreateFails []).2.filterMap writerTarget =
      threeEntries.map (fun f => ("bkt", f.Name)) :=
  (C5_fetch_result_is_discarded worldCreateFails [] "Images_png_01.zip"
    "http://host/a.zip" "bkt" false).2.2.2 threeEntries (fun _ => rfl) (fun _ => rfl)
    (fun _ _ _ => rfl)

/-- C5 as stated fails.  The scratch file cannot be created, so `FetchFile`
returns an error; `FetchUploadAndHandleFile` still calls `UnzipAndUploadFiles`,
which opens the file left by an earlier run and uploads its three entries. -/
theorem C5_unzip_runs_after_failed_fetch_counterexample :
    ((FetchFile "Images_png_01.zip" "http://host/a.zip").exec worldCreateFails
        (fuhHead "Images_png_01.zip" "http://host/a.zip" "bkt")).1
      = some ⟨"open: permission denied"⟩ ∧
    ((FetchUploadAndHandleFile "Images_png_01.zip" "http://host/a.zip" "bkt" false).exec
        worldCreateFails []).2.filterMap callOf =
      [(.FetchUploadAndHandleFile, ["Images_png_01.zip", "http://host/a.zip", "bkt"]),
        (.FetchFile, ["Images_png_01.zip", "http://host/a.zip"]),
        (.UnzipAndUploadFiles, ["Images_png_01.zip", "bkt"])] ∧
    ((FetchUploadAndHandleFile "Images_png_01.zip" "http://host/a.zip" "bkt" false).exec
        worldCreateFails []).2.filterMap writerTarget =
      [("bkt", "a.png"), ("bkt", "b.png"), ("bkt", "c.png")] := by
  decide

/-- C7, as the code has it.  `FetchFile` returns `nil` exactly when the file is
created, `http.Get` returns a response and the copy of its body succeeds; the
status code of the response plays no part.  When the request cannot be
established the error of `http.Get` is returned; when a response of any status
arrives and its body copies, that body is written to the file and the result is
`nil`. -/
theorem C7_fetchFile_ignores_the_status (w : World) (h : List Op) (filename url : String) :
    (((FetchFile filename url).exec w h).1 = none ↔
      (w.respond h (.osCreate filename) = none ∧
        ∃ resp, w.respond (h ++ [.osCreate filename]) (.httpGet url) = .ok resp ∧
          w.respond (h ++ [.osCreate filename, .httpGet url]) (.ioCopyToFile filename resp)
            = none)) ∧
    (∀ e, w.respond h (.osCreate filename) = none →
      w.respond (h ++ [.osCreate filename]) (.httpGet url) = .error e →
      (FetchFile filename url).exec w h =
        (some e, [.osCreate filename, .httpGet url, .fileClose filename])) ∧
    (∀ resp, w.respond h (.osCreate filename) = none →
      w.respond (h ++ [.osCreate filename]) (.httpGet url) = .ok resp →
      w.respond (h ++ [.osCreate filename, .httpGet url]) (.ioCopyToFile filename resp)
        = none →
      (FetchFile filename url).exec w h =
        (none, [.osCreate filename, .httpGet url, .ioCopyToFile filename resp,
          .bodyClose url, .fileClose filename])) := by
  refine ⟨?_, ?_, ?_⟩
  · simp only [FetchFile, exec_perform_bind]
    cases hc : w.respond h (.osCreate filename) with
    | some e => simp
    | none =>
      simp only [exec_perform_bind]
      cases hg : w.respond (h ++ [.osCreate filename]) (.httpGet url) with
      | error e => simp
      | ok resp =>
        simp only [exec_perform_bind]
        have hh : h ++ [Op.osCreate filename] ++ [Op.httpGet url]
            = h ++ [Op.osCreate filename, Op.httpGet url] := by simp
        rw [hh]
        cases hcp : w.respond (h ++ [.osCreate filename, .httpGet url])
            (.ioCopyToFile filename resp) with
        | some e =>
          simp only [exec_perform_bind, exec_pure, reduceCtorEq, false_iff, not_and,
            not_exists, true_implies]
          intro x hx
          cases hx
          simp [hcp]
        | none =>
          simp only [exec_perform_bind, exec_pure, true_iff, true_and]
          exact ⟨resp, rfl, hcp⟩
  · intro e hc hg
    simp [FetchFile, hc, hg]
  · intro resp hc hg hcp
    simp [FetchFile, hc, hg, hcp]

/-- C7, as the code has it, at a request that cannot be established and at a
`404` response. -/
theorem C7_fetchFile_ignores_the_status_witness :
    (FetchFile "Images_png_01.zip" "http://host/a.zip").exec worldNoRoute [] =
      (some ⟨"dial tcp: no route to host"⟩,
        [.osCreate "Images_png_01.zip", .httpGet "http://host/a.zip",
          .fileClose "Images_png_01.zip"]) ∧
    (FetchFile "Images_png_01.zip" "http://host/a.zip").exec worldNotFound [] =
      (none,
        [.osCreate "Images_png_01.zip", .httpGet "http://host/a.zip",
          .ioCopyToFile "Images_png_01.zip" ⟨404, "Not Found"⟩,
          .bodyClose "http://host/a.zip", .fileClose "Images_png_01.zip"]) :=
  ⟨(C7_fetchFile_ignores_the_status worldNoRoute [] "Images_png_01.zip"
      "http://host/a.zip").2.1 _ rfl rfl,
    (C7_fetchFile_ignores_the_status worldNotFound [] "Images_png_01.zip"
      "http://host/a.zip").2.2 _ rfl rfl rfl⟩

/-- C7 as stated fails.  The endpoint answers `404 Not Found`: `http.Get` returns
the response without an error, `FetchFile` copies the body of the error response
to the destination file and returns `nil`. -/
theorem C7_error_status_is_success_counterexample :
    worldNotFound.respond [.osCreate "Images_png_01.zip"] (.httpGet "http://host/a.zip")
      = .ok ⟨404, "Not Found"⟩ ∧
    ((FetchFile "Images_png_01.zip" "http://host/a.zip").exec worldNotFound []).1 = none ∧
    Op.ioCopyToFile "Images_png_01.zip" ⟨404, "Not Found"⟩ ∈
      ((FetchFile "Images_png_01.zip" "http://host/a.zip").exec worldNotFound []).2 :=
  ⟨rfl, by decide, by decide⟩

/-- The history of `UnzipAndUploadFiles` when the container does not open. -/
theorem unzip_exec_not_opened (w : World) (h : List Op) (fn b : String) (e : GoError)
    (hzip : w.respond h (.zipOpenReader fn) = .error e) :
    (UnzipAndUploadFiles fn b).exec w h =
      (some e, [.zipOpenReader fn, .logPrint ("Unable to open zip " ++ fn ++ "\n")]) := by
  simp [UnzipAndUploadFiles, hzip]

/-- The part of the history of `Begin`, with the cleanup flag set, that belongs to
an archive whose container never opens: nothing of it is opened or uploaded, and
the scratch file is removed right after `UnzipAndUploadFiles` has returned. -/
theorem beginLoop_removes_unopened (w : World) (r : Int) (b : String) (n : Nat) (e : GoError)
    (hzip : ∀ h, w.respond h (.zipOpenReader (scratchName n)) = .error e)
    (urls : List String) (i : Nat) (h : List Op)
    (hlo : i < n) (hhi : n ≤ i + urls.length) (hr : r ≤ (n : Int)) :
    ∃ before after, ((beginLoop r true b i urls).exec w h).2 =
      before ++
        [.call .UnzipAndUploadFiles [scratchName n, b],
          .zipOpenReader (scratchName n),
          .logPrint ("Unable to open zip " ++ scratchName n ++ "\n"),
          .ret .UnzipAndUploadFiles [scratchName n, b] (some e),
          .osRemove (scratchName n)] ++ after := by
  induction urls generalizing i h with
  | nil => simp at hhi; omega
  | cons url rest ih =>
    simp only [List.length_cons] at hhi
    by_cases hskip : (i : Int) + 1 < r
    · rw [beginLoop_skip r true b i url rest hskip]
      exact ih (i + 1) h (by omega) (by omega)
    · rw [beginLoop_cons_exec w h r true b i url rest hskip]
      by_cases hn : n = i + 1
      · subst hn
        have hU : ∀ h1, (UnzipAndUploadFiles (scratchName (i + 1)) b).exec w h1 =
            (some e, [.zipOpenReader (scratchName (i + 1)),
              .logPrint ("Unable to open zip " ++ scratchName (i + 1) ++ "\n")]) :=
          fun h1 => unzip_exec_not_opened w h1 (scratchName (i + 1)) b e (hzip h1)
        generalize ((beginLoop r true b (i + 1) rest).exec w _).2 = R
        simp only [fuh_exec, hU]
        refine ⟨fuhHead (scratchName (i + 1)) url b ++
          ((FetchFile (scratchName (i + 1)) url).exec w
            (h ++ fuhHead (scratchName (i + 1)) url b)).2 ++
          [.ret .FetchFile [scratchName (i + 1), url]
            ((FetchFile (scratchName (i + 1)) url).exec w
              (h ++ fuhHead (scratchName (i + 1)) url b)).1,
            .logPrint ("Download of file " ++ scratchName (i + 1) ++
              " complete, begining unzip and upload to GCP\n")], R, ?_⟩
        simp [fuhMiddle, fuhTail]
      · obtain ⟨p, q, hpq⟩ := ih (i + 1)
          (h ++ ((FetchUploadAndHandleFile (scratchName (i + 1)) url b false).exec w h).2 ++
            (if true = true then [.osRemove (scratchName (i + 1))] else []))
          (by omega) (by omega)
        rw [hpq]
        exact ⟨((FetchUploadAndHandleFile (scratchName (i + 1)) url b false).exec w h).2 ++
          [.osRemove (scratchName (i + 1))] ++ p, q, by simp⟩

/-- C4, as the code has it.  In the sequential strategy with the cleanup flag
set, when the container of the archive with ordinal `n` (an ordinal of the
catalog, at or after the resume ordinal) fails to open, no entry of that archive
is opened or uploaded, and the scratch file is deleted all the same: the call of
`UnzipAndUploadFiles` for it consists of the failed `zip.OpenReader` and a log
line, and is followed at once by `os.Remove` of the scratch file. -/
theorem C4_unopened_archive_is_still_removed (w : World) (DownloadURLs : List String)
    (resumeAt : Int) (bucketName : String) (n : Nat) (e : GoError)
    (hn : 1 ≤ n ∧ n ≤ DownloadURLs.length) (hr : resumeAt ≤ (n : Int))
    (hzip : ∀ h, w.respond h (.zipOpenReader (scratchName n)) = .error e) :
    ∃ before after, ((Begin DownloadURLs resumeAt true bucketName).exec w []).2 =
      before ++
        [.call .UnzipAndUploadFiles [scratchName n, bucketName],
          .zipOpenReader (scratchName n),
          .logPrint ("Unable to open zip " ++ scratchName n ++ "\n"),
          .ret .UnzipAndUploadFiles [scratchName n, bucketName] (some e),
          .osRemove (scratchName n)] ++ after :=
  beginLoop_removes_unopened w resumeAt bucketName n e hzip DownloadURLs 0 []
    (by omega) (by omega) hr

/-- C4, as the code has it, at a catalog of one url whose download is not a zip
archive. -/
theorem C4_unopened_archive_is_still_removed_witness :
    ∃ before after,
      ((Begin ["http://host/a.zip"] 1 true "bkt").exec worldBadZip []).2 =
        before ++
          [.call .UnzipAndUploadFiles [scratchName 1, "bkt"],
            .zipOpenReader (scratchName 1),
            .logPrint ("Unable to open zip " ++ scratchName 1 ++ "\n"),
            .ret .UnzipAndUploadFiles [scratchName 1, "bkt"]
              (some ⟨"zip: not a valid zip file"⟩),
            .osRemove (scratchName 1)] ++ after :=
  C4_unopened_archive_is_still_removed worldBadZip ["http://host/a.zip"] 1 "bkt" 1
    ⟨"zip: not a valid zip file"⟩ (by decide) (by decide) (fun _ => rfl)

/-- C4 as stated fails.  The catalog has one url, the download succeeds but is
not a zip archive, and the cleanup flag is set: `zip.OpenReader` fails, nothing
is uploaded, and `Begin` removes `Images_png_01.zip`. -/
theorem C4_scratch_file_removed_after_open_failure_counterexample :
    (Begin ["http://host/a.zip"] 1 true "bkt").exec worldBadZip [] =
      ((),
        [.call .FetchUploadAndHandleFile ["Images_png_01.zip", "http://host/a.zip", "bkt"],
          .logPrint "Starting download of Images_png_01.zip\n",
          .call .FetchFile ["Images_png_01.zip", "http://host/a.zip"],
          .osCreate "Images_png_01.zip",
          .httpGet "http://host/a.zip",
          .ioCopyToFile "Images_png_01.zip" ⟨200, "not a zip"⟩,
          .bodyClose "http://host/a.zip",
          .fileClose "Images_png_01.zip",
          .ret .FetchFile ["Images_png_01.zip", "http://host/a.zip"] none,
          .logPrint
            "Download of file Images_png_01.zip complete, begining unzip and upload to GCP\n",
          .call .UnzipAndUploadFiles ["Images_png_01.zip", "bkt"],
          .zipOpenReader "Images_png_01.zip",
          .logPrint "Unable to open zip Images_png_01.zip\n",
          .ret .UnzipAndUploadFiles ["Images_png_01.zip", "bkt"]
            (some ⟨"zip: not a valid zip file"⟩),
          .osRemove "Images_png_01.zip"]) := by
  decide

/-! ## The scratch file name -/

theorem digitChar_value (k : Nat) (hk : k < 10) : (Nat.digitChar k).toNat - 48 = k := by
  interval_cases k <;> rfl

theorem digitChar_isDigit (k : Nat) (hk : k < 10) : (Nat.digitChar k).isDigit = true := by
  interval_cases k <;> rfl

theorem digitChar_ne_zero (k : Nat) (hk : k < 10) (hpos : 0 < k) : Nat.digitChar k ≠ '0' := by
  interval_cases k <;> decide

theorem toDigitsCore_eq (n : Nat) : ∀ (fuel : Nat) (acc : List Char), n < fuel →
    Nat.toDigitsCore 10 fuel n acc = Nat.toDigitsCore 10 (n + 1) n [] ++ acc := by
  induction n using Nat.strong_induction_on with
  | _ n ih =>
    intro fuel acc hf
    obtain ⟨f, rfl⟩ : ∃ f, fuel = f + 1 := ⟨fuel - 1, by omega⟩
    simp only [Nat.toDigitsCore]
    by_cases h0 : n / 10 = 0
    · simp [h0]
    · have hlt : n / 10 < n := by omega
      simp only [h0, if_false]
      rw [ih (n / 10) hlt f _ (by omega), ih (n / 10) hlt n [_] (by omega)]
      simp

theorem toDigits_eq (n : Nat) :
    Nat.toDigits 10 n =
      if n / 10 = 0 then [Nat.digitChar (n % 10)]
      else Nat.toDigits 10 (n / 10) ++ [Nat.digitChar (n % 10)] := by
  unfold Nat.toDigits
  conv_lhs => unfold Nat.toDigitsCore
  by_cases h0 : n / 10 = 0
  · simp [h0]
  · simp only [h0, if_false]
    rw [toDigitsCore_eq (n / 10) n _ (by omega)]

theorem decimalValue_append (l : List Char) (c : Char) :
    decimalValue (l ++ [c]) = 10 * decimalValue l + (c.toNat - 48) := by
  simp [decimalValue, List.foldl_append]

theorem toDigits_spec (n : Nat) :
    decimalValue (Nat.toDigits 10 n) = n ∧
    (∀ c ∈ Nat.toDigits 10 n, c.isDigit = true) ∧
    (n < 10 → (Nat.toDigits 10 n).length = 1) ∧
    (10 ≤ n → 2 ≤ (Nat.toDigits 10 n).length) ∧
    (0 < n → (Nat.toDigits 10 n).head? ≠ some '0') ∧
    Nat.toDigits 10 n ≠ [] := by
  induction n using Nat.strong_induction_on with
  | _ n ih =>
    rw [toDigits_eq]
    have hmod : n % 10 < 10 := Nat.mod_lt _ (by decide)
    by_cases h0 : n / 10 = 0
    · have hn : n < 10 := by omega
      have hm : n % 10 = n := Nat.mod_eq_of_lt hn
      simp only [h0, if_true, hm]
      refine ⟨?_, ?_, ?_, ?_, ?_, ?_⟩
      · simp [decimalValue, digitChar_value n hn]
      · intro c hc
        simp only [List.mem_singleton] at hc
        subst hc
        exact digitChar_isDigit n hn
      · intro _; rfl
      · intro h; omega
      · intro hpos
        simp only [List.head?_cons, ne_eq, Option.some.injEq]
        exact digitChar_ne_zero n hn hpos
      · simp
    · have hlt : n / 10 < n := by omega
      obtain ⟨hv, hd, hl1, hl2, hh, hne⟩ := ih (n / 10) hlt
      simp only [h0, if_false]
      refine ⟨?_, ?_, ?_, ?_, ?_, ?_⟩
      · rw [decimalValue_append, hv, digitChar_value _ hmod]
        omega
      · intro c hc
        simp only [List.mem_append, List.mem_singleton] at hc
        rcases hc with hc | hc
        · exact hd c hc
        · subst hc
          exact digitChar_isDigit _ hmod
      · intro h; omega
      · intro _
        have : 1 ≤ (Nat.toDigits 10 (n / 10)).length := by
          cases hx : Nat.toDigits 10 (n / 10) with
          | nil => exact absurd hx hne
          | cons a t => simp
        simp only [List.length_append, List.length_singleton]
        omega
      · intro _
        cases hx : Nat.toDigits 10 (n / 10) with
        | nil => exact absurd hx hne
        | cons a t =>
          have := hh (by omega)
          rw [hx] at this
          simpa using this
      · simp

theorem fmt02d_data (n : Nat) :
    (fmt02d n).data = List.replicate (2 - (Nat.toDigits 10 n).length) '0' ++ Nat.toDigits 10 n := by
  simp [fmt02d, Nat.repr, List.asString, String.length]

theorem decimalValue_zeros (k : Nat) (l : List Char) :
    decimalValue (List.replicate k '0' ++ l) = decimalValue l := by
  induction k with
  | zero => simp
  | succ k ih =>
    simp only [decimalValue, List.replicate_succ, List.cons_append, List.foldl_cons] at ih ⊢
    exact ih

theorem fmt02d_value (n : Nat) : decimalValue (fmt02d n).data = n := by
  rw [fmt02d_data, decimalValue_zeros, (toDigits_spec n).1]

theorem scratchName_data (n : Nat) :
    (scratchName n).data = "Images_png_".data ++ (fmt02d n).data ++ ".zip".data := by
  simp [scratchName]

theorem scratchName_injective (m n : Nat) (h : scratchName m = scratchName n) : m = n := by
  have hd := congrArg String.data h
  rw [scratchName_data, scratchName_data] at hd
  have h1 := List.append_cancel_right hd
  have h2 := List.append_cancel_left h1
  have := congrArg decimalValue h2
  rwa [fmt02d_value, fmt02d_value] at this


/-- C10. The scratch file name is a function of the ordinal alone (`scratchName`
is what both `Begin` and `BeginConcurrent` compute): ordinal 1 gives
`Images_png_01.zip`; for every ordinal `n` the name is `Images_png_`, then the
decimal digits of `n` padded with zeros to two digits (at least two digits, all
of them decimal digits, of value `n`, exactly two when `n < 100`, without a
leading zero when `n ≥ 10`), then `.zip`; and different ordinals have different
names. -/
theorem C10_scratch_name_of_ordinal :
    scratchName 1 = "Images_png_01.zip" ∧
    (∀ n : Nat, ∃ d : String,
      scratchName n = "Images_png_" ++ d ++ ".zip" ∧
      (∀ c ∈ d.data, c.isDigit = true) ∧
      decimalValue d.data = n ∧
      2 ≤ d.length ∧
      (n < 100 → d.length = 2) ∧
      (10 ≤ n → d.data.head? ≠ some '0')) ∧
    Function.Injective scratchName := by
  refine ⟨by decide, fun n => ⟨fmt02d n, rfl, ?_, fmt02d_value n, ?_, ?_, ?_⟩,
    fun m n h => scratchName_injective m n h⟩
  · intro c hc
    rw [fmt02d_data] at hc
    simp only [List.mem_append, List.mem_replicate] at hc
    rcases hc with ⟨_, rfl⟩ | hc
    · rfl
    · exact (toDigits_spec n).2.1 c hc
  · have := (toDigits_spec n).2.2.2.1
    have h1 := (toDigits_spec n).2.2.1
    simp only [String.length, fmt02d_data, List.length_append, List.length_replicate]
    omega
  · intro hn
    have hle : (Nat.toDigits 10 n).length ≤ 2 :=
      Nat.toDigitsCore_length 10 (by decide) (n + 1) n 2 (by omega) (by decide)
    have := (toDigits_spec n).2.2.2.1
    have h1 := (toDigits_spec n).2.2.1
    simp only [String.length, fmt02d_data, List.length_append, List.length_replicate]
    omega
  · intro hn
    have h2 := (toDigits_spec n).2.2.2.1 hn
    have hh := (toDigits_spec n).2.2.2.2.1 (by omega)
    rw [fmt02d_data]
    have : 2 - (Nat.toDigits 10 n).length = 0 := by omega
    rw [this]
    simpa using hh

/-- C10 at the ordinals 1 and 2: the two scratch files differ. -/
theorem C10_scratch_name_of_ordinal_witness : scratchName 1 ≠ scratchName 2 :=
  fun h => absurd (C10_scratch_name_of_ordinal.2.2 h) (by decide)

/-! ## The concurrent strategy -/

theorem mainAt_nil (r : Int) (b : String) (i : Nat) :
    mainAt r b i [] = .op .wgWait (fun _ => .ret ()) := rfl

theorem mainAt_skip (r : Int) (b : String) (i : Nat) (url : String) (rest : List String)
    (h : (i : Int) + 1 < r) : mainAt r b i (url :: rest) = mainAt r b (i + 1) rest := by
  simp [mainAt, beginConcurrentLoop, h]

theorem mainAt_cons (r : Int) (b : String) (i : Nat) (url : String) (rest : List String)
    (h : ¬ (i : Int) + 1 < r) :
    mainAt r b i (url :: rest) =
      .op .wgAdd (fun _ => .op (.go (scratchName (i + 1)) url b)
        (fun _ => mainAt r b (i + 1) rest)) := by
  simp [mainAt, beginConcurrentLoop, h]
  rfl

theorem launchesFrom_nil (r : Int) (b : String) (i : Nat) : launchesFrom r b i [] = [] := rfl

theorem launchesFrom_skip (r : Int) (b : String) (i : Nat) (url : String) (rest : List String)
    (h : (i : Int) + 1 < r) :
    launchesFrom r b i (url :: rest) = launchesFrom r b (i + 1) rest := by
  have : ¬ r ≤ (i : Int) + 1 := by omega
  simp [launchesFrom, toProcess, List.enumFrom_cons, this]

theorem launchesFrom_cons (r : Int) (b : String) (i : Nat) (url : String) (rest : List String)
    (h : ¬ (i : Int) + 1 < r) :
    launchesFrom r b i (url :: rest) =
      [scratchName (i + 1), url, b] :: launchesFrom r b (i + 1) rest := by
  have : r ≤ (i : Int) + 1 := by omega
  simp [launchesFrom, toProcess, List.enumFrom_cons, this, pipelineArgs]

/-- The next operation of the main goroutine at the head of the loop: either the
loop is over and it waits, or it adds to the wait group for the next entry at or
after the resume ordinal. -/
theorem mainAt_head (r : Int) (b : String) (rest : List String) (i : Nat) :
    (mainAt r b i rest = .op .wgWait (fun _ => .ret ()) ∧ launchesFrom r b i rest = []) ∨
    ∃ (j : Nat) (url : String) (rest1 : List String), ¬ (j : Int) + 1 < r ∧
      mainAt r b i rest = .op .wgAdd (fun _ => .op (.go (scratchName (j + 1)) url b)
        (fun _ => mainAt r b (j + 1) rest1)) ∧
      launchesFrom r b i rest = launchesFrom r b j (url :: rest1) := by
  induction rest generalizing i with
  | nil => exact Or.inl ⟨mainAt_nil r b i, launchesFrom_nil r b i⟩
  | cons url rest ih =>
    by_cases h : (i : Int) + 1 < r
    · rw [mainAt_skip r b i url rest h, launchesFrom_skip r b i url rest h]
      exact ih (i + 1)
    · exact Or.inr ⟨i, url, rest, h, mainAt_cons r b i url rest h, rfl⟩

theorem isLocal_not_sync (o : Op) (h : o.isLocal = true) : o.isSync = false := by
  cases o <;> simp_all [Op.isLocal, Op.isSync]

theorem isLocal_fuhCallOf (o : Op) (h : o.isLocal = true) : fuhCallOf o = none := by
  cases o with
  | call f args => cases f <;> simp_all [Op.isLocal, fuhCallOf]
  | _ => simp_all [fuhCallOf]

theorem not_sync_launchOf (o : Op) (h : o.isSync = false) : launchOf o = none := by
  cases o <;> simp_all [Op.isSync, launchOf]

theorem opEffect_not_sync (o : Op) (s : CState) (h : o.isSync = false) :
    opEffect o s = some { s with hist := s.hist ++ [o] } := by
  cases o <;> simp_all [Op.isSync, opEffect]

theorem pending_perform_bind {β : Type} (o : Op) (f : o.Resp → Prog β)
    (ho : o.isLocal = true) (hf : ∀ r, (f r).Pending) : (perform o >>= f).Pending := by
  have hne : o ≠ .wgDone := by
    rintro rfl
    simp [Op.isLocal] at ho
  simp only [perform, Bind.bind, Prog.bind, Prog.Pending, hne, if_false]
  exact ⟨ho, hf⟩

theorem pending_bind {α β : Type} (p : Prog α) (f : α → Prog β)
    (hp : p.Forall (fun o => o.isLocal = true)) (hf : ∀ a, (f a).Pending) :
    (p >>= f).Pending := by
  induction p with
  | ret a => exact hf a
  | op o k ih =>
    have hne : o ≠ .wgDone := by
      rintro rfl
      have := hp.1
      simp [Op.isLocal] at this
    have h2 : ∀ r, ((k r) >>= f).Pending := fun r => ih r (hp.2 r)
    simp only [Bind.bind] at h2
    simp only [Bind.bind, Prog.bind, Prog.Pending, hne, if_false]
    exact ⟨hp.1, h2⟩

theorem pending_not_ret {α : Type} (p : Prog α) (h : p.Pending) :
    p.isRet = false ∧ p.atEntry = false := by
  cases p with
  | ret a => exact absurd h (by simp [Prog.Pending])
  | op o k =>
    refine ⟨rfl, ?_⟩
    by_cases ho : o = .wgDone
    · subst ho; rfl
    · simp only [Prog.Pending, ho, if_false] at h
      cases o with
      | call f args => cases f <;> simp_all [Op.isLocal, Prog.atEntry]
      | _ => rfl

theorem fetchFile_local (fn url : String) :
    (FetchFile fn url).Forall (fun o => o.isLocal = true) :=
  forall_mono _ _ (fun o ho => by cases o <;> simp_all [Op.isFetchIO, Op.isLocal]) _
    (fetchFile_forall fn url)

theorem unzip_local (fn b : String) :
    (UnzipAndUploadFiles fn b).Forall (fun o => o.isLocal = true) :=
  forall_mono _ _ (fun o ho => by cases o <;> simp_all [Op.isUnzipIO, Op.isLocal]) _
    (unzip_forall fn b)

/-- A goroutine started by `BeginConcurrent`: its first operation is the entry of
`FetchUploadAndHandleFile` with its arguments, and from there on every path ends
with one `wg.Done()`. -/
theorem fuh_fresh (fn url b : String) :
    ∃ k, FetchUploadAndHandleFile fn url b true =
        .op (.call .FetchUploadAndHandleFile [fn, url, b]) k ∧
      ∀ r, (k r).Pending := by
  refine ⟨_, rfl, fun _ => ?_⟩
  refine pending_perform_bind _ _ rfl fun _ => ?_
  refine pending_perform_bind _ _ rfl fun _ => ?_
  refine pending_bind _ _ (fetchFile_local fn url) fun e1 => ?_
  refine pending_perform_bind _ _ rfl fun _ => ?_
  refine pending_perform_bind _ _ rfl fun _ => ?_
  refine pending_perform_bind _ _ rfl fun _ => ?_
  refine pending_bind _ _ (unzip_local fn b) fun e2 => ?_
  refine pending_perform_bind _ _ rfl fun _ => ?_
  simp [perform, Bind.bind, Prog.bind, Prog.Pending, Prog.isRet, pure]

theorem get?_split {α : Type} (l : List α) (i : Nat) (t : α) (h : l.get? i = some t) :
    ∃ l1 l2, l = l1 ++ t :: l2 ∧ l1.length = i := by
  induction l generalizing i with
  | nil => simp at h
  | cons a l ih =>
    cases i with
    | zero =>
      simp only [List.get?_cons_zero, Option.some.injEq] at h
      exact ⟨[], l, by simp [h], rfl⟩
    | succ i =>
      simp only [List.get?_cons_succ] at h
      obtain ⟨l1, l2, hl, hlen⟩ := ih i h
      exact ⟨a :: l1, l2, by simp [hl], by simp [hlen]⟩

theorem set_split {α : Type} (l1 l2 : List α) (t u : α) :
    (l1 ++ t :: l2).set l1.length u = l1 ++ u :: l2 := by
  simp

theorem mainAt_atGo (r : Int) (b : String) (i : Nat) (rest : List String) :
    (mainAt r b i rest).atGo = false := by
  rcases mainAt_head r b rest i with ⟨h, _⟩ | ⟨j, url, rest1, _, h, _⟩ <;> rw [h] <;> rfl

theorem inv_init (urls : List String) (r : Int) (b : String) :
    Inv urls r b (concInit urls r b) where
  tasksOK := by simp [concInit]
  counter := by
    have : (BeginConcurrent urls r b).atGo = false := mainAt_atGo r b 0 urls
    simp [concInit, CState.unfinished, this]
  calls := by simp [concInit]
  launches := by simp [concInit]
  adds := by
    have : (BeginConcurrent urls r b).atGo = false := mainAt_atGo r b 0 urls
    simp [concInit, this]
  dones := by simp [concInit]
  main := Or.inl ⟨0, urls, rfl, by simp [concInit]⟩

/-- A step of the main goroutine keeps the invariant. -/
theorem inv_step_main (w : World) (urls : List String) (r : Int) (b : String) (s : CState)
    (hs : Inv urls r b s) : Inv urls r b ((cstep w 0 s).getD s) := by
  obtain ⟨main, tasks, counter, hist⟩ := s
  rcases hs.main with ⟨i, rest, hmain, hl⟩ | ⟨i, url, rest, hi, hmain, hl⟩ | ⟨hmain, _, _⟩
  · simp only at hmain hl
    have hgo0 : main.atGo = false := by rw [hmain]; exact mainAt_atGo r b i rest
    have hc := hs.counter
    have ha := hs.adds
    simp only [CState.unfinished, hgo0] at hc ha
    rcases mainAt_head r b rest i with ⟨hw, hnil⟩ | ⟨j, url, rest1, hj, hadd, hl1⟩
    · -- the loop is over: `wg.Wait()`
      rw [hw] at hmain
      subst hmain
      by_cases hzero : counter = 0
      · have hstep : cstep w 0 ⟨.op .wgWait (fun _ => .ret ()), tasks, counter, hist⟩ =
            some ⟨.ret (), tasks, counter, hist ++ [.wgWait]⟩ := by
          simp [cstep, opEffect, hzero]
        rw [hstep]
        simp only [Option.getD_some]
        have hfin : ∀ t ∈ tasks, t.finished = true := by
          intro t ht
          have : tasks.countP (fun t => !t.finished) = 0 := by
            simp only [hzero] at hc
            simpa using hc.symm
          rw [List.countP_eq_zero] at this
          simpa using this t ht
        exact
          { tasksOK := hs.tasksOK
            counter := by simpa [CState.unfinished, Prog.atGo] using hc
            calls := by simpa [fuhCallOf] using hs.calls
            launches := by simpa [launchOf] using hs.launches
            adds := by simpa [Prog.atGo] using ha
            dones := by simpa using hs.dones
            main := Or.inr (Or.inr ⟨rfl, by simpa [hnil] using hl, hfin⟩) }
      · have hstep : cstep w 0 ⟨.op .wgWait (fun _ => .ret ()), tasks, counter, hist⟩ = none := by
          simp [cstep, opEffect, hzero]
        rw [hstep]
        exact hs
    · -- the next entry: `wg.Add(1)`
      rw [hadd] at hmain
      subst hmain
      have hstep : cstep w 0 ⟨.op .wgAdd (fun _ => .op (.go (scratchName (j + 1)) url b)
            (fun _ => mainAt r b (j + 1) rest1)), tasks, counter, hist⟩ =
          some ⟨.op (.go (scratchName (j + 1)) url b) (fun _ => mainAt r b (j + 1) rest1),
            tasks, counter + 1, hist ++ [.wgAdd]⟩ := by
        simp [cstep, opEffect]
      rw [hstep]
      simp only [Option.getD_some]
      exact
        { tasksOK := hs.tasksOK
          counter := by simp [CState.unfinished, Prog.atGo, hc]
          calls := by simpa [fuhCallOf] using hs.calls
          launches := by simpa [launchOf] using hs.launches
          adds := by simp [Prog.atGo, ha]
          dones := by simpa using hs.dones
          main := Or.inr (Or.inl ⟨j, url, rest1, hj, rfl, by simpa [hl1] using hl⟩) }
  · -- the `go` statement
    simp only at hmain hl
    subst hmain
    have hc := hs.counter
    have ha := hs.adds
    simp only [CState.unfinished, Prog.atGo] at hc ha
    have hstep : cstep w 0 ⟨.op (.go (scratchName (i + 1)) url b)
          (fun _ => mainAt r b (i + 1) rest), tasks, counter, hist⟩ =
        some ⟨mainAt r b (i + 1) rest,
          tasks ++ [⟨[scratchName (i + 1), url, b],
            FetchUploadAndHandleFile (scratchName (i + 1)) url b true⟩],
          counter, hist ++ [.go (scratchName (i + 1)) url b]⟩ := by
      simp [cstep, opEffect]
    rw [hstep]
    simp only [Option.getD_some]
    have hgo1 := mainAt_atGo r b (i + 1) rest
    obtain ⟨k, hk, hpend⟩ := fuh_fresh (scratchName (i + 1)) url b
    have hfresh : Task.OK ⟨[scratchName (i + 1), url, b],
        FetchUploadAndHandleFile (scratchName (i + 1)) url b true⟩ :=
      Or.inr (Or.inr ⟨k, hk, hpend⟩)
    have hnotfin : Task.finished ⟨[scratchName (i + 1), url, b],
        FetchUploadAndHandleFile (scratchName (i + 1)) url b true⟩ = false := by
      simp [Task.finished, hk, Prog.isRet]
    have hnotstarted : Task.started ⟨[scratchName (i + 1), url, b],
        FetchUploadAndHandleFile (scratchName (i + 1)) url b true⟩ = false := by
      simp [Task.started, hk, Prog.atEntry]
    exact
      { tasksOK := by
          intro t ht
          simp only [List.mem_append, List.mem_singleton] at ht
          rcases ht with ht | rfl
          · exact hs.tasksOK t ht
          · exact hfresh
        counter := by
          simp [CState.unfinished, hgo1, hnotfin, hc]
        calls := by
          simpa [fuhCallOf, List.filter_append, hnotstarted] using hs.calls
        launches := by simpa [launchOf] using hs.launches
        adds := by simp [hgo1, ha]
        dones := by simpa [List.countP_append, hnotfin] using hs.dones
        main := Or.inl ⟨i + 1, rest, rfl, by
          rw [← hl, launchesFrom_cons r b i url rest hi]
          simp⟩ }
  · simp only at hmain
    subst hmain
    have hstep : cstep w 0 ⟨.ret (), tasks, counter, hist⟩ = none := by
      simp [cstep]
    rw [hstep]
    exact hs

/-- A step of a goroutine does not change what is known of the main goroutine. -/
theorem mainOK_task_step (urls : List String) (r : Int) (b : String) (main : Prog Unit)
    (l1 l2 : List Task) (a : List String) (o : Op) (k : o.Resp → Prog (Option GoError))
    (body : Prog (Option GoError))
    (h : MainOK urls r b main (l1 ++ ⟨a, .op o k⟩ :: l2)) :
    MainOK urls r b main (l1 ++ ⟨a, body⟩ :: l2) := by
  rcases h with ⟨i, rest, hmain, hl⟩ | ⟨i, url, rest, hi, hmain, hl⟩ | ⟨_, _, hfin⟩
  · exact Or.inl ⟨i, rest, hmain, by simpa using hl⟩
  · exact Or.inr (Or.inl ⟨i, url, rest, hi, hmain, by simpa using hl⟩)
  · have := hfin ⟨a, .op o k⟩ (by simp)
    simp [Task.finished, Prog.isRet] at this

/-- A step of a started goroutine keeps the invariant. -/
theorem inv_step_task (w : World) (urls : List String) (r : Int) (b : String) (s : CState)
    (hs : Inv urls r b s) (i : Nat) : Inv urls r b ((cstep w (i + 1) s).getD s) := by
  obtain ⟨main, tasks, counter, hist⟩ := s
  cases hget : tasks.get? i with
  | none =>
    have hstep : cstep w (i + 1) ⟨main, tasks, counter, hist⟩ = none := by
      simp only [cstep, hget]
    rw [hstep]
    exact hs
  | some t =>
    obtain ⟨a, body⟩ := t
    cases body with
    | ret x =>
      have hstep : cstep w (i + 1) ⟨main, tasks, counter, hist⟩ = none := by
        simp only [cstep, hget]
      rw [hstep]
      exact hs
    | op o k =>
      obtain ⟨l1, l2, hl, hlen⟩ := get?_split tasks i _ hget
      subst hl
      subst hlen
      have hOK := hs.tasksOK ⟨a, .op o k⟩ (by simp)
      have hc := hs.counter
      have hcalls := hs.calls
      have hlaunch := hs.launches
      have ha := hs.adds
      have hd := hs.dones
      have hm := hs.main
      have hold : Task.finished ⟨a, .op o k⟩ = false := rfl
      simp only [CState.unfinished] at hc ha hd hcalls hlaunch hm
      rcases hOK with hret | hpend | ⟨k1, hbody, hpend⟩
      · simp [Prog.isRet] at hret
      · by_cases ho : o = .wgDone
        · -- the goroutine calls `wg.Done()` and returns
          subst ho
          have hk : ∀ x, (k x).isRet = true := by simpa [Prog.Pending] using hpend
          have hstep : cstep w (l1.length + 1)
                ⟨main, l1 ++ ⟨a, .op .wgDone k⟩ :: l2, counter, hist⟩ =
              some ⟨main, l1 ++ ⟨a, k (w.respond hist .wgDone)⟩ :: l2, counter - 1,
                hist ++ [.wgDone]⟩ := by
            simp only [cstep, hget, opEffect, Option.map, set_split]
          rw [hstep]
          simp only [Option.getD_some]
          have hkr := hk (w.respond hist .wgDone)
          have hnew : Task.finished ⟨a, k (w.respond hist .wgDone)⟩ = true := hkr
          have hentry : (k (w.respond hist .wgDone)).atEntry = false := by
            cases hx : k (w.respond hist .wgDone) with
            | ret x => rfl
            | op o1 k1 => rw [hx] at hkr; simp [Prog.isRet] at hkr
          have hst0 : Task.started ⟨a, .op .wgDone k⟩ = true := rfl
          have hst1 : Task.started ⟨a, k (w.respond hist .wgDone)⟩ = true := by
            simp [Task.started, hentry]
          exact
            { tasksOK := by
                intro t ht
                simp only [List.mem_append, List.mem_cons] at ht
                rcases ht with ht | rfl | ht
                · exact hs.tasksOK t (by simp [ht])
                · exact Or.inl hkr
                · exact hs.tasksOK t (by simp [ht])
              counter := by
                simp [CState.unfinished, hold, hnew] at hc ⊢
                omega
              calls := by
                simpa [fuhCallOf, List.filter_append, List.filter_cons, hst0, hst1]
                  using hcalls
              launches := by simpa [launchOf] using hlaunch
              adds := by simpa using ha
              dones := by
                simp [hold, hnew] at hd ⊢
                omega
              main := mainOK_task_step urls r b main l1 l2 a _ k _ hm }
        · -- a local operation
          simp only [Prog.Pending, ho, if_false] at hpend
          obtain ⟨hloc, hk⟩ := hpend
          have hns := isLocal_not_sync o hloc
          have hstep : cstep w (l1.length + 1)
                ⟨main, l1 ++ ⟨a, .op o k⟩ :: l2, counter, hist⟩ =
              some ⟨main, l1 ++ ⟨a, k (w.respond hist o)⟩ :: l2, counter,
                hist ++ [o]⟩ := by
            simp only [cstep, hget, opEffect_not_sync o _ hns, Option.map, set_split]
          rw [hstep]
          simp only [Option.getD_some]
          have hkr := hk (w.respond hist o)
          obtain ⟨hnr, hne⟩ := pending_not_ret _ hkr
          have hnew : Task.finished ⟨a, k (w.respond hist o)⟩ = false := hnr
          have hentry0 : (Prog.op o k).atEntry = false := by
            cases o with
            | call f args => cases f <;> simp_all [Op.isLocal, Prog.atEntry]
            | _ => rfl
          have hst0 : Task.started ⟨a, .op o k⟩ = true := by
            simp [Task.started, hentry0]
          have hst1 : Task.started ⟨a, k (w.respond hist o)⟩ = true := by
            simp [Task.started, hne]
          have hcount : List.count Op.wgAdd [o] = 0 ∧ List.count Op.wgDone [o] = 0 := by
            cases o <;> simp_all [Op.isSync]
          exact
            { tasksOK := by
                intro t ht
                simp only [List.mem_append, List.mem_cons] at ht
                rcases ht with ht | rfl | ht
                · exact hs.tasksOK t (by simp [ht])
                · exact Or.inr (Or.inl hkr)
                · exact hs.tasksOK t (by simp [ht])
              counter := by
                simp [CState.unfinished, hold, hnew] at hc ⊢
                omega
              calls := by
                simpa [isLocal_fuhCallOf o hloc, List.filter_append, List.filter_cons,
                  hst0, hst1] using hcalls
              launches := by simpa [not_sync_launchOf o hns] using hlaunch
              adds := by simpa [List.count_append, hcount.1] using ha
              dones := by
                simp [hold, hnew, List.count_append, hcount.2] at hd ⊢
                omega
              main := mainOK_task_step urls r b main l1 l2 a _ k _ hm }
      · -- the goroutine enters `FetchUploadAndHandleFile`
        simp only at hbody
        injection hbody with ho hk1
        subst ho
        have hk1 : k = k1 := eq_of_heq hk1
        subst hk1
        have hstep : cstep w (l1.length + 1)
              ⟨main, l1 ++ ⟨a, .op (.call .FetchUploadAndHandleFile a) k⟩ :: l2, counter,
                hist⟩ =
            some ⟨main,
              l1 ++ ⟨a, k (w.respond hist (.call .FetchUploadAndHandleFile a))⟩ :: l2,
              counter, hist ++ [.call .FetchUploadAndHandleFile a]⟩ := by
          simp only [cstep, hget, opEffect, Option.map, set_split]
        rw [hstep]
        simp only [Option.getD_some]
        have hkr := hpend (w.respond hist (.call .FetchUploadAndHandleFile a))
        obtain ⟨hnr, hne⟩ := pending_not_ret _ hkr
        have hnew : Task.finished
            ⟨a, k (w.respond hist (.call .FetchUploadAndHandleFile a))⟩ = false := hnr
        have hst0 : Task.started ⟨a, .op (.call .FetchUploadAndHandleFile a) k⟩ = false :=
          rfl
        have hst1 : Task.started
            ⟨a, k (w.respond hist (.call .FetchUploadAndHandleFile a))⟩ = true := by
          simp [Task.started, hne]
        exact
          { tasksOK := by
              intro t ht
              simp only [List.mem_append, List.mem_cons] at ht
              rcases ht with ht | rfl | ht
              · exact hs.tasksOK t (by simp [ht])
              · exact Or.inr (Or.inl hkr)
              · exact hs.tasksOK t (by simp [ht])
            counter := by
              simp [CState.unfinished, hold, hnew] at hc ⊢
              omega
            calls := by
              simp only [List.filterMap_append, List.filter_append, List.filter_cons,
                hst0, hst1, List.map_append, List.map_cons,
                List.filterMap_cons, List.filterMap_nil, fuhCallOf,
                if_true, Bool.false_eq_true, if_false] at hcalls ⊢
              exact (hcalls.append_right [a]).trans (by
                simp only [List.append_assoc]
                exact (List.perm_append_left_iff _).2 (List.perm_append_singleton _ _))
            launches := by simpa [launchOf] using hlaunch
            adds := by simpa [List.count_append] using ha
            dones := by
              simp [hold, hnew, List.count_append] at hd ⊢
              omega
            main := mainOK_task_step urls r b main l1 l2 a _ k _ hm }

/-- Every step keeps the invariant. -/
theorem inv_step (w : World) (urls : List String) (r : Int) (b : String) (s : CState)
    (hs : Inv urls r b s) (t : Nat) : Inv urls r b ((cstep w t s).getD s) := by
  cases t with
  | zero => exact inv_step_main w urls r b s hs
  | succ i => exact inv_step_task w urls r b s hs i

/-- The invariant holds in every state the concurrent strategy can reach. -/
theorem inv_run (w : World) (urls : List String) (r : Int) (b : String) (sched : List Nat) :
    Inv urls r b (runSched w sched (concInit urls r b)) := by
  suffices h : ∀ s, Inv urls r b s → Inv urls r b (runSched w sched s) from
    h _ (inv_init urls r b)
  induction sched with
  | nil => exact fun s hs => hs
  | cons t ts ih => exact fun s hs => ih _ (inv_step w urls r b s hs t)

/-- The calls recorded in the history of the loop of `Begin`: the three calls of
the pipeline of every entry at or after the resume ordinal, in the order of the
catalog. -/
theorem beginLoop_calls (w : World) (r : Int) (rm : Bool) (b : String) (urls : List String)
    (i : Nat) (h : List Op) :
    ((beginLoop r rm b i urls).exec w h).2.filterMap callOf =
      (toProcess r (urls.enumFrom (i + 1))).flatMap (pipelineCalls b) := by
  induction urls generalizing i h with
  | nil => simp [beginLoop, toProcess]
  | cons url rest ih =>
    by_cases hskip : (i : Int) + 1 < r
    · have : ¬ r ≤ (i : Int) + 1 := by omega
      rw [beginLoop_skip r rm b i url rest hskip, ih]
      simp [toProcess, List.enumFrom_cons, this]
    · have : r ≤ (i : Int) + 1 := by omega
      rw [beginLoop_cons_exec w h r rm b i url rest hskip]
      simp only [List.filterMap_append, fuh_calls, ih]
      cases rm <;> simp [toProcess, List.enumFrom_cons, this, pipelineCalls, callOf]

/-- The history of `FetchUploadAndHandleFile` with a wait group: `wg.Done()` is
its last operation and occurs nowhere else, and both `FetchFile` and
`UnzipAndUploadFiles` have returned before it. -/
theorem fuh_done_last (w : World) (h : List Op) (fn url b : String) :
    ∃ p q e1 e2,
      ((FetchUploadAndHandleFile fn url b true).exec w h).2 =
        p ++ [.ret .FetchFile [fn, url] e1] ++ q ++
          [.ret .UnzipAndUploadFiles [fn, b] e2, .wgDone] ∧
      Op.wgDone ∉ p ∧ Op.wgDone ∉ q := by
  have hF := exec_forall _ w _ (fetchFile_local fn url) (h ++ fuhHead fn url b)
  have hU := exec_forall _ w _ (unzip_local fn b)
    (h ++ fuhHead fn url b ++ ((FetchFile fn url).exec w (h ++ fuhHead fn url b)).2 ++
      fuhMiddle fn url b ((FetchFile fn url).exec w (h ++ fuhHead fn url b)).1)
  rw [fuh_exec]
  generalize (FetchFile fn url).exec w (h ++ fuhHead fn url b) = F at hF hU ⊢
  generalize (UnzipAndUploadFiles fn b).exec w
    (h ++ fuhHead fn url b ++ F.2 ++ fuhMiddle fn url b F.1) = U at hU ⊢
  refine ⟨fuhHead fn url b ++ F.2,
    [.logPrint ("Download of file " ++ fn ++ " complete, begining unzip and upload to GCP\n"),
      .call .UnzipAndUploadFiles [fn, b]] ++ U.2, F.1, U.1, ?_, ?_, ?_⟩
  · simp [fuhMiddle, fuhTail]
  · intro hmem
    simp only [List.mem_append] at hmem
    rcases hmem with hmem | hmem
    · simp [fuhHead] at hmem
    · have := hF _ hmem
      simp [Op.isLocal] at this
  · intro hmem
    simp only [List.mem_append] at hmem
    rcases hmem with hmem | hmem
    · simp at hmem
    · have := hU _ hmem
      simp [Op.isLocal] at this

/-- C9. A goroutine running `FetchUploadAndHandleFile` with a wait group calls
`wg.Done()` once, as its last operation, after `FetchFile` and
`UnzipAndUploadFiles` have both returned, whatever they return.  In every state
the concurrent strategy can reach, under every schedule and in every world: the
counter of the wait group is the number of tasks launched and not finished (a
task counting as launched from its `wg.Add(1)`, which precedes its `go`
statement); there has been one `wg.Add(1)` for every launched task and one
`wg.Done()` for every finished one; the counter is zero only when every launched
task has finished; and when `BeginConcurrent` has returned from `wg.Wait()` every
task has been launched and has finished. -/
theorem C9_barrier_waits_for_every_task (w : World) (DownloadURLs : List String)
    (resumeAt : Int) (bucketName : String) :
    (∀ (h : List Op) (filename url : String), ∃ p q e1 e2,
      ((FetchUploadAndHandleFile filename url bucketName true).exec w h).2 =
        p ++ [.ret .FetchFile [filename, url] e1] ++ q ++
          [.ret .UnzipAndUploadFiles [filename, bucketName] e2, .wgDone] ∧
      Op.wgDone ∉ p ∧ Op.wgDone ∉ q) ∧
    (∀ sched : List Nat,
      (runSched w sched (concInit DownloadURLs resumeAt bucketName)).counter =
        ((runSched w sched (concInit DownloadURLs resumeAt bucketName)).unfinished : Int) ∧
      (runSched w sched (concInit DownloadURLs resumeAt bucketName)).hist.count .wgAdd =
        (runSched w sched (concInit DownloadURLs resumeAt bucketName)).tasks.length +
          (if (runSched w sched (concInit DownloadURLs resumeAt bucketName)).main.atGo
            then 1 else 0) ∧
      (runSched w sched (concInit DownloadURLs resumeAt bucketName)).hist.count .wgDone =
        (runSched w sched (concInit DownloadURLs resumeAt bucketName)).tasks.countP
          Task.finished ∧
      ((runSched w sched (concInit DownloadURLs resumeAt bucketName)).counter = 0 →
        (runSched w sched (concInit DownloadURLs resumeAt bucketName)).main.atGo = false ∧
        ∀ t ∈ (runSched w sched (concInit DownloadURLs resumeAt bucketName)).tasks,
          t.finished = true) ∧
      ((runSched w sched (concInit DownloadURLs resumeAt bucketName)).main.isRet = true →
        (runSched w sched (concInit DownloadURLs resumeAt bucketName)).tasks.map Task.args =
          (toProcess resumeAt (catalog DownloadURLs)).map (pipelineArgs bucketName) ∧
        ∀ t ∈ (runSched w sched (concInit DownloadURLs resumeAt bucketName)).tasks,
          t.finished = true)) := by
  refine ⟨fun h fn url => fuh_done_last w h fn url bucketName, fun sched => ?_⟩
  have hinv := inv_run w DownloadURLs resumeAt bucketName sched
  generalize runSched w sched (concInit DownloadURLs resumeAt bucketName) = s at hinv
  refine ⟨hinv.counter, hinv.adds, hinv.dones, ?_, ?_⟩
  · intro hzero
    have hc := hinv.counter
    rw [hzero] at hc
    simp only [CState.unfinished] at hc
    have hsum : s.tasks.countP (fun t => !t.finished) + (if s.main.atGo then 1 else 0) = 0 := by
      exact_mod_cast hc.symm
    have h1 : s.tasks.countP (fun t => !t.finished) = 0 := by omega
    have h2 : (if s.main.atGo then 1 else 0) = 0 := by omega
    refine ⟨by simpa using h2, fun t ht => ?_⟩
    rw [List.countP_eq_zero] at h1
    simpa using h1 t ht
  · intro hret
    rcases hinv.main with ⟨i, rest, hm, _⟩ | ⟨i, url, rest, _, hm, _⟩ | ⟨_, hl, hfin⟩
    · rw [hm] at hret
      rcases mainAt_head resumeAt bucketName rest i with ⟨h1, _⟩ | ⟨_, _, _, _, h1, _⟩ <;>
        rw [h1] at hret <;> simp [Prog.isRet] at hret
    · rw [hm] at hret
      simp [Prog.isRet] at hret
    · exact ⟨hl, hfin⟩

/-- C9 for a catalog of two archives under a schedule that runs the two
goroutines in turns and then the main goroutine: `BeginConcurrent` has returned,
both tasks were launched and both have finished. -/
theorem C9_barrier_waits_for_every_task_witness :
    (runSched worldBadZip twoTaskSchedule (concInit ["urlA", "urlB"] 1 "bkt")).main.isRet
      = true ∧
    (runSched worldBadZip twoTaskSchedule (concInit ["urlA", "urlB"] 1 "bkt")).tasks.map
        Task.args
      = (toProcess 1 (catalog ["urlA", "urlB"])).map (pipelineArgs "bkt") ∧
    ∀ t ∈ (runSched worldBadZip twoTaskSchedule (concInit ["urlA", "urlB"] 1 "bkt")).tasks,
      t.finished = true :=
  ⟨by decide,
    (C9_barrier_waits_for_every_task worldBadZip ["urlA", "urlB"] 1 "bkt").2
      twoTaskSchedule |>.2.2.2.2 (by decide)⟩

/-! ## The sequential strategy: interleaving -/

theorem runPhases_append (p : Phase) (l1 l2 : List Op) :
    runPhases p (l1 ++ l2) = (runPhases p l1).bind fun q => runPhases q l2 := by
  induction l1 generalizing p with
  | nil => rfl
  | cons o os ih =>
    simp only [List.cons_append, runPhases]
    cases phaseStep p o with
    | none => rfl
    | some q => simpa using ih q

theorem runPhases_fetching (fn : String) (l : List Op) (hl : ∀ o ∈ l, o.isFetchIO = true) :
    runPhases (.fetching fn) l = some (.fetching fn) := by
  induction l with
  | nil => rfl
  | cons o os ih =>
    have ho := hl o (List.mem_cons_self _ _)
    have hstep : phaseStep (.fetching fn) o = some (.fetching fn) := by
      cases o <;> simp_all [Op.isFetchIO, phaseStep]
    simp only [runPhases, hstep, Option.some_bind]
    exact ih fun x hx => hl x (List.mem_cons_of_mem _ hx)

theorem runPhases_unzipping (fn : String) (l : List Op) (hl : ∀ o ∈ l, o.isUnzipIO = true) :
    runPhases (.unzipping fn) l = some (.unzipping fn) := by
  induction l with
  | nil => rfl
  | cons o os ih =>
    have ho := hl o (List.mem_cons_self _ _)
    have hstep : phaseStep (.unzipping fn) o = some (.unzipping fn) := by
      cases o <;> simp_all [Op.isUnzipIO, Op.isFetchIO, phaseStep]
    simp only [runPhases, hstep, Option.some_bind]
    exact ih fun x hx => hl x (List.mem_cons_of_mem _ hx)

/-- The history of one call of `FetchUploadAndHandleFile` without a wait group
takes the pipeline from between two archives back to between two archives. -/
theorem fuh_phases (w : World) (h : List Op) (fn url b : String) :
    runPhases .idle ((FetchUploadAndHandleFile fn url b false).exec w h).2 = some .idle := by
  have hF := exec_forall _ w _ (fetchFile_forall fn url) (h ++ fuhHead fn url b)
  have hU := exec_forall _ w _ (unzip_forall fn b)
    (h ++ fuhHead fn url b ++ ((FetchFile fn url).exec w (h ++ fuhHead fn url b)).2 ++
      fuhMiddle fn url b ((FetchFile fn url).exec w (h ++ fuhHead fn url b)).1)
  rw [fuh_exec]
  generalize (FetchFile fn url).exec w (h ++ fuhHead fn url b) = F at hF hU ⊢
  generalize (UnzipAndUploadFiles fn b).exec w
    (h ++ fuhHead fn url b ++ F.2 ++ fuhMiddle fn url b F.1) = U at hU ⊢
  have h1 : runPhases .idle (fuhHead fn url b) = some (.fetching fn) := by
    simp [fuhHead, runPhases, phaseStep]
  have h2 := runPhases_fetching fn F.2 hF
  have h3 : runPhases (.fetching fn) (fuhMiddle fn url b F.1) = some (.unzipping fn) := by
    simp [fuhMiddle, runPhases, phaseStep]
  have h4 := runPhases_unzipping fn U.2 hU
  have h5 : runPhases (.unzipping fn) (fuhTail fn b U.1 false) = some .idle := by
    simp [fuhTail, runPhases, phaseStep]
  simp [runPhases_append, h1, h2, h3, h4, h5]

theorem beginLoop_phases (w : World) (r : Int) (rm : Bool) (b : String) (urls : List String)
    (i : Nat) (h : List Op) :
    runPhases .idle ((beginLoop r rm b i urls).exec w h).2 = some .idle := by
  induction urls generalizing i h with
  | nil => simp [beginLoop, runPhases]
  | cons url rest ih =>
    by_cases hskip : (i : Int) + 1 < r
    · rw [beginLoop_skip r rm b i url rest hskip]
      exact ih (i + 1) h
    · rw [beginLoop_cons_exec w h r rm b i url rest hskip]
      have hrm : runPhases .idle (if rm then [.osRemove (scratchName (i + 1))] else [])
          = some .idle := by
        cases rm <;> simp [runPhases, phaseStep]
      simp [runPhases_append, fuh_phases, hrm, ih]

theorem phaseStep_fetched (p : Phase) (o : Op) (fn : String)
    (h : phaseStep p o = some (.fetched fn)) :
    p = .fetched fn ∨ ∃ args e, o = .ret .FetchFile args e ∧ args.head? = some fn := by
  cases o with
  | call f args =>
    cases f <;> cases p <;> cases args <;> simp_all [phaseStep, Op.isFetchIO, Op.isUnzipIO]
  | ret f args e =>
    cases f <;> cases p <;> simp_all [phaseStep, Op.isFetchIO, Op.isUnzipIO]
  | _ => cases p <;> simp_all [phaseStep, Op.isFetchIO, Op.isUnzipIO]

theorem runPhases_fetched (l : List Op) (p : Phase) (fn : String)
    (h : runPhases p l = some (.fetched fn)) :
    p = .fetched fn ∨ ∃ args e, args.head? = some fn ∧ Op.ret .FetchFile args e ∈ l := by
  induction l generalizing p with
  | nil =>
    simp only [runPhases, Option.some.injEq] at h
    exact Or.inl h
  | cons o os ih =>
    simp only [runPhases] at h
    cases hq : phaseStep p o with
    | none => simp [hq] at h
    | some q =>
      simp only [hq, Option.some_bind] at h
      rcases ih q h with rfl | ⟨args, e, ha, hmem⟩
      · rcases phaseStep_fetched p o fn hq with hp | ⟨args, e, rfl, ha⟩
        · exact Or.inl hp
        · exact Or.inr ⟨args, e, ha, List.mem_cons_self _ _⟩
      · exact Or.inr ⟨args, e, ha, List.mem_cons_of_mem _ hmem⟩

theorem phaseStep_unzip_count (p q : Phase) (o : Op) (h : phaseStep p o = some q) :
    ([o].filterMap unzipCallOf).length + p.inUnzip =
      ([o].filterMap unzipRetOf).length + q.inUnzip := by
  cases o with
  | call f args =>
    cases f <;> cases p <;> cases args <;>
      simp_all [phaseStep, Op.isFetchIO, Op.isUnzipIO, unzipCallOf, unzipRetOf, Phase.inUnzip]
    all_goals first
      | (subst h; rfl)
      | (obtain ⟨_, h⟩ := h; subst h; rfl)
  | ret f args e =>
    cases f <;> cases p <;>
      simp_all [phaseStep, Op.isFetchIO, Op.isUnzipIO, unzipCallOf, unzipRetOf, Phase.inUnzip]
    all_goals first
      | (subst h; rfl)
      | (obtain ⟨_, h⟩ := h; subst h; rfl)
  | _ =>
    cases p <;>
      simp_all [phaseStep, Op.isFetchIO, Op.isUnzipIO, unzipCallOf, unzipRetOf, Phase.inUnzip]
    all_goals (subst h; rfl)

theorem runPhases_unzip_count (l : List Op) (p q : Phase) (h : runPhases p l = some q) :
    (l.filterMap unzipCallOf).length + p.inUnzip =
      (l.filterMap unzipRetOf).length + q.inUnzip := by
  induction l generalizing p with
  | nil =>
    simp only [runPhases, Option.some.injEq] at h
    subst h
    rfl
  | cons o os ih =>
    simp only [runPhases] at h
    cases hq : phaseStep p o with
    | none => simp [hq] at h
    | some m =>
      simp only [hq, Option.some_bind] at h
      have h1 := phaseStep_unzip_count p m o hq
      have h2 := ih m h
      have e1 : ((o :: os).filterMap unzipCallOf).length =
          ([o].filterMap unzipCallOf).length + (os.filterMap unzipCallOf).length := by
        rw [← List.length_append, ← List.filterMap_append]
        rfl
      have e2 : ((o :: os).filterMap unzipRetOf).length =
          ([o].filterMap unzipRetOf).length + (os.filterMap unzipRetOf).length := by
        rw [← List.length_append, ← List.filterMap_append]
        rfl
      omega

theorem runPhases_split (p m : Phase) (l1 l2 : List Op) (c : Op)
    (h : runPhases p (l1 ++ c :: l2) = some m) :
    ∃ q q1, runPhases p l1 = some q ∧ phaseStep q c = some q1 := by
  rw [runPhases_append] at h
  cases hq : runPhases p l1 with
  | none => simp [hq] at h
  | some q =>
    simp only [hq, Option.some_bind, runPhases] at h
    cases hq1 : phaseStep q c with
    | none => simp [hq1] at h
    | some q1 => exact ⟨q, q1, rfl, hq1⟩

/-- C2. In the sequential strategy, for every catalog, resume ordinal, cleanup
flag and world, the history of `Begin` is strictly interleaved.  It follows the
phases of `phaseStep` from between two archives back to between two archives:
`FetchFile` is called only when no call of `FetchFile` or of
`UnzipAndUploadFiles` is outstanding, and `UnzipAndUploadFiles` is called only
for the file whose `FetchFile` has just returned.  In particular every call of
`UnzipAndUploadFiles` for a file comes after a return of `FetchFile` for that
file, and at every call of `FetchFile` all the earlier calls of
`UnzipAndUploadFiles` have returned. -/
theorem C2_sequential_strict_interleaving (w : World) (DownloadURLs : List String)
    (resumeAt : Int) (removeFiles : Bool) (bucketName : String) :
    runPhases .idle ((Begin DownloadURLs resumeAt removeFiles bucketName).exec w []).2
      = some .idle ∧
    (∀ before after args,
      ((Begin DownloadURLs resumeAt removeFiles bucketName).exec w []).2 =
        before ++ .call .UnzipAndUploadFiles args :: after →
      ∃ fn fargs e, args.head? = some fn ∧ fargs.head? = some fn ∧
        Op.ret .FetchFile fargs e ∈ before) ∧
    (∀ before after args,
      ((Begin DownloadURLs resumeAt removeFiles bucketName).exec w []).2 =
        before ++ .call .FetchFile args :: after →
      (before.filterMap unzipCallOf).length = (before.filterMap unzipRetOf).length) := by
  have hacc := beginLoop_phases w resumeAt removeFiles bucketName DownloadURLs 0 []
  refine ⟨hacc, ?_, ?_⟩
  · intro before after args htr
    have hacc1 : runPhases .idle (before ++ .call .UnzipAndUploadFiles args :: after)
        = some .idle := by
      rw [← htr]
      exact hacc
    obtain ⟨q, q1, hq, hstep⟩ := runPhases_split _ _ _ _ _ hacc1
    cases q with
    | fetched fn =>
      have hhead : args.head? = some fn := by
        by_contra hne
        simp [phaseStep, hne] at hstep
      rcases runPhases_fetched before .idle fn hq with hp | ⟨fargs, e, hf, hmem⟩
      · cases hp
      · exact ⟨fn, fargs, e, hhead, hf, hmem⟩
    | _ => simp [phaseStep] at hstep
  · intro before after args htr
    have hacc1 : runPhases .idle (before ++ .call .FetchFile args :: after) = some .idle := by
      rw [← htr]
      exact hacc
    obtain ⟨q, q1, hq, hstep⟩ := runPhases_split _ _ _ _ _ hacc1
    cases q with
    | idle =>
      have := runPhases_unzip_count before .idle .idle hq
      simpa [Phase.inUnzip] using this
    | _ => simp [phaseStep] at hstep

/-- C2 for a catalog of one archive that is not a zip file: the call of
`UnzipAndUploadFiles` for `Images_png_01.zip` comes after the return of
`FetchFile` for it. -/
theorem C2_sequential_strict_interleaving_witness :
    ∃ fn fargs e, ["Images_png_01.zip", "bkt"].head? = some fn ∧ fargs.head? = some fn ∧
      Op.ret .FetchFile fargs e ∈
        [.call .FetchUploadAndHandleFile ["Images_png_01.zip", "http://host/a.zip", "bkt"],
          .logPrint "Starting download of Images_png_01.zip\n",
          .call .FetchFile ["Images_png_01.zip", "http://host/a.zip"],
          .osCreate "Images_png_01.zip",
          .httpGet "http://host/a.zip",
          .ioCopyToFile "Images_png_01.zip" ⟨200, "not a zip"⟩,
          .bodyClose "http://host/a.zip",
          .fileClose "Images_png_01.zip",
          .ret .FetchFile ["Images_png_01.zip", "http://host/a.zip"] none,
          .logPrint
            "Download of file Images_png_01.zip complete, begining unzip and upload to GCP\n"] :=
  (C2_sequential_strict_interleaving worldBadZip ["http://host/a.zip"] 1 true "bkt").2.1
    _ [.zipOpenReader "Images_png_01.zip",
      .logPrint "Unable to open zip Images_png_01.zip\n",
      .ret .UnzipAndUploadFiles ["Images_png_01.zip", "bkt"]
        (some ⟨"zip: not a valid zip file"⟩),
      .osRemove "Images_png_01.zip"] ["Images_png_01.zip", "bkt"] (by decide)

/-! ## The concurrent strategy: the calls made, and completion -/

theorem callsAhead_callsAlong {α : Type} (p : Prog α) (cs : List (Fn × List String))
    (h : p.CallsAhead cs) : p.callsAlong = cs := by
  induction p generalizing cs with
  | ret a => exact h.symm
  | op o k ih =>
    obtain ⟨rest, hcs, hk⟩ := h
    simp only [Prog.callsAlong, ih _ rest (hk _), hcs]

theorem callsAhead_self {α : Type} (p : Prog α) (cs : List (Fn × List String))
    (h : p.CallsAhead cs) : p.CallsAhead p.callsAlong := by
  rw [callsAhead_callsAlong p cs h]
  exact h

theorem callsAhead_perform_bind {β : Type} (o : Op) (f : o.Resp → Prog β)
    (rest : List (Fn × List String)) (hf : ∀ r, (f r).CallsAhead rest) :
    (perform o >>= f).CallsAhead ((callOf o).toList ++ rest) :=
  ⟨rest, rfl, hf⟩

theorem callsAhead_bind {α β : Type} (p : Prog α) (f : α → Prog β)
    (cs : List (Fn × List String)) (hp : p.Forall (fun o => callOf o = none))
    (hf : ∀ a, (f a).CallsAhead cs) : (p >>= f).CallsAhead cs := by
  induction p with
  | ret a => exact hf a
  | op o k ih =>
    refine ⟨cs, ?_, fun r => ih r (hp.2 r)⟩
    simp [hp.1]

theorem fetchFile_quiet (fn url : String) :
    (FetchFile fn url).Forall (fun o => callOf o = none) :=
  forall_mono _ _ (fun o ho => by cases o <;> simp_all [Op.isFetchIO, callOf]) _
    (fetchFile_forall fn url)

theorem unzip_quiet (fn b : String) :
    (UnzipAndUploadFiles fn b).Forall (fun o => callOf o = none) :=
  forall_mono _ _ (fun o ho => by cases o <;> simp_all [Op.isUnzipIO, callOf]) _
    (unzip_forall fn b)

/-- On every path `FetchUploadAndHandleFile` records its own call, the call of
`FetchFile` and the call of `UnzipAndUploadFiles`, once each, in that order. -/
theorem fuh_callsAhead (fn url b : String) (wg : Bool) :
    (FetchUploadAndHandleFile fn url b wg).CallsAhead (callsOfArgs [fn, url, b]) := by
  refine callsAhead_perform_bind (.call .FetchUploadAndHandleFile [fn, url, b]) _ _ fun _ => ?_
  refine callsAhead_perform_bind (.logPrint _) _ _ fun _ => ?_
  refine callsAhead_perform_bind (.call .FetchFile [fn, url]) _ _ fun _ => ?_
  refine callsAhead_bind _ _ _ (fetchFile_quiet fn url) fun e1 => ?_
  refine callsAhead_perform_bind (.ret .FetchFile [fn, url] e1) _ _ fun _ => ?_
  refine callsAhead_perform_bind (.logPrint _) _ _ fun _ => ?_
  refine callsAhead_perform_bind (.call .UnzipAndUploadFiles [fn, b]) _ [] fun _ => ?_
  refine callsAhead_bind _ _ _ (unzip_quiet fn b) fun e2 => ?_
  refine callsAhead_perform_bind (.ret .UnzipAndUploadFiles [fn, b] e2) _ [] fun _ => ?_
  cases wg
  · exact rfl
  · exact callsAhead_perform_bind .wgDone _ [] fun _ => rfl

theorem mainAt_callsAhead (r : Int) (b : String) (rest : List String) (i : Nat) :
    (mainAt r b i rest).CallsAhead [] := by
  induction rest generalizing i with
  | nil =>
    rw [mainAt_nil]
    exact ⟨[], rfl, fun _ => rfl⟩
  | cons url rest ih =>
    by_cases h : (i : Int) + 1 < r
    · rw [mainAt_skip r b i url rest h]
      exact ih (i + 1)
    · rw [mainAt_cons r b i url rest h]
      exact ⟨[], rfl, fun _ => ⟨[], rfl, fun _ => ih (i + 1)⟩⟩

theorem perm_move {α : Type} (H M A1 c rest A2 R : List α)
    (h : (H ++ M ++ (A1 ++ ((c ++ rest) ++ A2))).Perm R) :
    ((H ++ c) ++ M ++ (A1 ++ (rest ++ A2))).Perm R := by
  refine List.Perm.trans ?_ h
  rw [← Multiset.coe_eq_coe]
  simp only [← Multiset.coe_add]
  abel

theorem opEffect_cases (o : Op) (s : CState) :
    opEffect o s = none ∨
    (o.blocksOrSpawns = false ∧
      ∃ c, opEffect o s = some ⟨s.main, s.tasks, c, s.hist ++ [o]⟩) ∨
    (o = .wgWait ∧ opEffect o s = some ⟨s.main, s.tasks, s.counter, s.hist ++ [o]⟩) ∨
    (∃ fn url b, o = .go fn url b ∧
      opEffect o s = some ⟨s.main,
        s.tasks ++ [⟨[fn, url, b], FetchUploadAndHandleFile fn url b true⟩],
        s.counter, s.hist ++ [o]⟩) := by
  cases o with
  | go fn url b => exact Or.inr (Or.inr (Or.inr ⟨fn, url, b, rfl, rfl⟩))
  | wgWait => by_cases h : s.counter = 0 <;> simp [opEffect, h]
  | _ => simp [opEffect, Op.blocksOrSpawns]

theorem filterMap_snoc {α : Type} (f : Op → Option α) (l : List Op) (o : Op) :
    (l ++ [o]).filterMap f = l.filterMap f ++ (f o).toList := by
  rw [List.filterMap_append]
  cases h : f o <;> simp [List.filterMap_cons, h]

/-- A goroutine started by a `go` statement records the calls of its pipeline. -/
theorem fresh_callsAlong (fn url b : String) :
    (FetchUploadAndHandleFile fn url b true).callsAlong = callsOfArgs [fn, url, b] :=
  callsAhead_callsAlong _ _ (fuh_callsAhead fn url b true)

/-- A step of the main goroutine keeps `CallsInv`. -/
theorem callsInv_step_main (w : World) (s : CState) (hs : CallsInv s) :
    CallsInv ((cstep w 0 s).getD s) := by
  obtain ⟨main, tasks, counter, hist⟩ := s
  cases main with
  | ret x =>
    have hstep : cstep w 0 ⟨.ret x, tasks, counter, hist⟩ = none := by simp [cstep]
    rw [hstep]
    exact hs
  | op o k =>
    obtain ⟨rest, hrest, hk⟩ := hs.mainAhead
    have hkr := hk (w.respond hist o)
    have hal := callsAhead_callsAlong _ _ hkr
    have hcalls := hs.calls
    simp only [hrest] at hcalls
    have hplain : ∀ c, CallsInv ⟨k (w.respond hist o), tasks, c, hist ++ [o]⟩ := fun c =>
      { mainAhead := callsAhead_self _ _ hkr
        tasksAhead := hs.tasksAhead
        calls := by
          simp only [filterMap_snoc, hal]
          simpa [List.append_assoc] using hcalls }
    rcases opEffect_cases o ⟨.op o k, tasks, counter, hist⟩ with
      hnone | ⟨_, c, hsome⟩ | ⟨_, hsome⟩ | ⟨fn, url, b, rfl, hsome⟩
    · have hstep : cstep w 0 ⟨.op o k, tasks, counter, hist⟩ = none := by
        simp [cstep, hnone]
      rw [hstep]
      exact hs
    · have hstep : cstep w 0 ⟨.op o k, tasks, counter, hist⟩ =
          some ⟨k (w.respond hist o), tasks, c, hist ++ [o]⟩ := by
        simp [cstep, hsome]
      rw [hstep]
      exact hplain c
    · have hstep : cstep w 0 ⟨.op o k, tasks, counter, hist⟩ =
          some ⟨k (w.respond hist o), tasks, counter, hist ++ [o]⟩ := by
        simp [cstep, hsome]
      rw [hstep]
      exact hplain counter
    · have hstep : cstep w 0 ⟨.op (.go fn url b) k, tasks, counter, hist⟩ =
          some ⟨k (w.respond hist (.go fn url b)),
            tasks ++ [⟨[fn, url, b], FetchUploadAndHandleFile fn url b true⟩], counter,
            hist ++ [.go fn url b]⟩ := by
        simp [cstep, hsome]
      rw [hstep]
      simp only [Option.getD_some]
      exact
        { mainAhead := callsAhead_self _ _ hkr
          tasksAhead := by
            intro t ht
            simp only [List.mem_append, List.mem_singleton] at ht
            rcases ht with ht | rfl
            · exact hs.tasksAhead t ht
            · exact callsAhead_self _ _ (fuh_callsAhead fn url b true)
          calls := by
            simp only [filterMap_snoc, hal, List.flatMap_append, List.flatMap_cons,
              List.flatMap_nil, List.append_nil, fresh_callsAlong]
            simp only [callOf, Option.toList, List.nil_append, List.append_nil] at hcalls ⊢
            have := hcalls.append_right (callsOfArgs [fn, url, b])
            simpa [List.append_assoc] using this }

/-- A step of a started goroutine keeps `CallsInv`. -/
theorem callsInv_step_task (w : World) (s : CState) (hs : CallsInv s) (i : Nat) :
    CallsInv ((cstep w (i + 1) s).getD s) := by
  obtain ⟨main, tasks, counter, hist⟩ := s
  cases hget : tasks.get? i with
  | none =>
    have hstep : cstep w (i + 1) ⟨main, tasks, counter, hist⟩ = none := by
      simp only [cstep, hget]
    rw [hstep]
    exact hs
  | some t =>
    obtain ⟨a, body⟩ := t
    cases body with
    | ret x =>
      have hstep : cstep w (i + 1) ⟨main, tasks, counter, hist⟩ = none := by
        simp only [cstep, hget]
      rw [hstep]
      exact hs
    | op o k =>
      obtain ⟨l1, l2, hl, hlen⟩ := get?_split tasks i _ hget
      subst hl
      subst hlen
      obtain ⟨rest, hrest, hk⟩ := hs.tasksAhead ⟨a, .op o k⟩ (by simp)
      simp only at hrest hk
      have hkr := hk (w.respond hist o)
      have hal := callsAhead_callsAlong _ _ hkr
      have hcalls := hs.calls
      simp only [List.flatMap_append, List.flatMap_cons, hrest] at hcalls
      have htasks : ∀ l3 : List Task, (∀ t ∈ l3, t.body.CallsAhead t.body.callsAlong) →
          ∀ t ∈ l1 ++ ⟨a, k (w.respond hist o)⟩ :: (l2 ++ l3),
            t.body.CallsAhead t.body.callsAlong := by
        intro l3 h3 t ht
        simp only [List.mem_append, List.mem_cons] at ht
        rcases ht with ht | rfl | ht | ht
        · exact hs.tasksAhead t (by simp [ht])
        · exact callsAhead_self _ _ hkr
        · exact hs.tasksAhead t (by simp [ht])
        · exact h3 t ht
      have hplain : ∀ c, CallsInv
          ⟨main, l1 ++ ⟨a, k (w.respond hist o)⟩ :: l2, c, hist ++ [o]⟩ := fun c =>
        { mainAhead := hs.mainAhead
          tasksAhead := by simpa using htasks [] (by simp)
          calls := by
            simp only [filterMap_snoc, hal, List.flatMap_append, List.flatMap_cons]
            exact perm_move _ _ _ _ _ _ _ hcalls }
      rcases opEffect_cases o ⟨main, l1 ++ ⟨a, .op o k⟩ :: l2, counter, hist⟩ with
        hnone | ⟨_, c, hsome⟩ | ⟨_, hsome⟩ | ⟨fn, url, b, rfl, hsome⟩
      · have hstep : cstep w (l1.length + 1)
            ⟨main, l1 ++ ⟨a, .op o k⟩ :: l2, counter, hist⟩ = none := by
          simp only [cstep, hget, hnone, Option.map]
        rw [hstep]
        exact hs
      · have hstep : cstep w (l1.length + 1)
            ⟨main, l1 ++ ⟨a, .op o k⟩ :: l2, counter, hist⟩ =
            some ⟨main, l1 ++ ⟨a, k (w.respond hist o)⟩ :: l2, c, hist ++ [o]⟩ := by
          simp only [cstep, hget, hsome, Option.map, set_split]
        rw [hstep]
        exact hplain c
      · have hstep : cstep w (l1.length + 1)
            ⟨main, l1 ++ ⟨a, .op o k⟩ :: l2, counter, hist⟩ =
            some ⟨main, l1 ++ ⟨a, k (w.respond hist o)⟩ :: l2, counter, hist ++ [o]⟩ := by
          simp only [cstep, hget, hsome, Option.map, set_split]
        rw [hstep]
        exact hplain counter
      · have hset : (l1 ++ Task.mk a (.op (.go fn url b) k) :: l2 ++
              [Task.mk [fn, url, b] (FetchUploadAndHandleFile fn url b true)]).set l1.length
              (Task.mk a (k (w.respond hist (.go fn url b)))) =
            l1 ++ Task.mk a (k (w.respond hist (.go fn url b))) ::
              (l2 ++ [Task.mk [fn, url, b] (FetchUploadAndHandleFile fn url b true)]) := by
          simp
        have hstep : cstep w (l1.length + 1)
            ⟨main, l1 ++ ⟨a, .op (.go fn url b) k⟩ :: l2, counter, hist⟩ =
            some ⟨main, l1 ++ ⟨a, k (w.respond hist (.go fn url b))⟩ ::
              (l2 ++ [⟨[fn, url, b], FetchUploadAndHandleFile fn url b true⟩]), counter,
              hist ++ [.go fn url b]⟩ := by
          simp only [cstep, hget, hsome, Option.map, hset]
        rw [hstep]
        simp only [Option.getD_some]
        exact
          { mainAhead := hs.mainAhead
            tasksAhead := htasks _ (by
              intro t ht
              rw [List.mem_singleton] at ht
              subst ht
              exact callsAhead_self _ _ (fuh_callsAhead fn url b true))
            calls := by
              simp only [filterMap_snoc, hal, List.flatMap_append, List.flatMap_cons,
                List.flatMap_nil, List.append_nil, fresh_callsAlong]
              have h1 := (perm_move _ _ _ _ _ _ _ hcalls).append_right
                (callsOfArgs [fn, url, b])
              simpa [List.append_assoc] using h1 }

/-- Every step keeps `CallsInv`, so it holds in every reachable state. -/
theorem callsInv_run (w : World) (urls : List String) (r : Int) (b : String)
    (sched : List Nat) : CallsInv (runSched w sched (concInit urls r b)) := by
  have hmain := mainAt_callsAhead r b urls 0
  have hinit : CallsInv (concInit urls r b) :=
    { mainAhead := callsAhead_self _ _ hmain
      tasksAhead := by simp [concInit]
      calls := by
        have : (BeginConcurrent urls r b).callsAlong = [] := callsAhead_callsAlong _ _ hmain
        simp [concInit, this] }
  suffices h : ∀ s, CallsInv s → CallsInv (runSched w sched s) from h _ hinit
  induction sched with
  | nil => exact fun s hs => hs
  | cons t ts ih =>
    intro s hs
    refine ih _ ?_
    cases t with
    | zero => exact callsInv_step_main w s hs
    | succ i => exact callsInv_step_task w s hs i

theorem runSched_append (w : World) (s1 s2 : List Nat) (s : CState) :
    runSched w (s1 ++ s2) s = runSched w s2 (runSched w s1 s) := by
  induction s1 generalizing s with
  | nil => rfl
  | cons t ts ih => exact ih _

theorem inv_runFrom (w : World) (urls : List String) (r : Int) (b : String)
    (sched : List Nat) (s : CState) (hs : Inv urls r b s) :
    Inv urls r b (runSched w sched s) := by
  induction sched generalizing s with
  | nil => exact hs
  | cons t ts ih => exact ih _ (inv_step w urls r b s hs t)

/-- From the head of its loop the main goroutine reaches `wg.Wait()` by steps of
its own. -/
theorem main_reaches_wait (w : World) (r : Int) (b : String) (rest : List String) :
    ∀ (i : Nat) (s : CState), s.main = mainAt r b i rest →
      ∃ n, (runSched w (List.replicate n 0) s).main = .op .wgWait (fun _ => .ret ()) := by
  induction rest with
  | nil =>
    intro i s hs
    exact ⟨0, by rw [← mainAt_nil r b i]; exact hs⟩
  | cons url rest ih =>
    intro i s hs
    by_cases h : (i : Int) + 1 < r
    · rw [mainAt_skip r b i url rest h] at hs
      exact ih (i + 1) s hs
    · rw [mainAt_cons r b i url rest h] at hs
      obtain ⟨main, tasks, counter, hist⟩ := s
      simp only at hs
      subst hs
      obtain ⟨n, hn⟩ := ih (i + 1)
        ⟨mainAt r b (i + 1) rest,
          tasks ++ [⟨[scratchName (i + 1), url, b],
            FetchUploadAndHandleFile (scratchName (i + 1)) url b true⟩],
          counter + 1, hist ++ [.wgAdd] ++ [.go (scratchName (i + 1)) url b]⟩ rfl
      refine ⟨n + 2, ?_⟩
      rw [← hn]
      simp [List.replicate_succ, runSched, cstep, opEffect]

theorem opEffect_nonblocking (o : Op) (s : CState) (h : o.blocksOrSpawns = false) :
    ∃ c, opEffect o s = some ⟨s.main, s.tasks, c, s.hist ++ [o]⟩ := by
  cases o <;> simp_all [opEffect, Op.blocksOrSpawns]

theorem get?_middle {α : Type} (l1 l2 : List α) (t : α) :
    (l1 ++ t :: l2).get? l1.length = some t := by
  induction l1 with
  | nil => rfl
  | cons a l ih => simpa using ih

/-- A goroutine none of whose operations blocks or starts a goroutine returns
after finitely many steps of its own, whatever the world answers; the other
goroutines are left as they are. -/
theorem task_finishes (w : World) (p : Prog (Option GoError)) :
    p.Forall (fun o => o.blocksOrSpawns = false) →
    ∀ (main : Prog Unit) (l1 l2 : List Task) (a : List String) (c : Int) (h : List Op),
      ∃ n x c1 h1, runSched w (List.replicate n (l1.length + 1))
          ⟨main, l1 ++ ⟨a, p⟩ :: l2, c, h⟩ =
        ⟨main, l1 ++ ⟨a, .ret x⟩ :: l2, c1, h1⟩ := by
  induction p with
  | ret x => exact fun _ main l1 l2 a c h => ⟨0, x, c, h, rfl⟩
  | op o k ih =>
    intro hp main l1 l2 a c h
    obtain ⟨c0, hc0⟩ := opEffect_nonblocking o ⟨main, l1 ++ ⟨a, .op o k⟩ :: l2, c, h⟩ hp.1
    obtain ⟨n, x, c1, h1, hn⟩ := ih (w.respond h o) (hp.2 _) main l1 l2 a c0 (h ++ [o])
    refine ⟨n + 1, x, c1, h1, ?_⟩
    have hstep : cstep w (l1.length + 1) ⟨main, l1 ++ ⟨a, .op o k⟩ :: l2, c, h⟩ =
        some ⟨main, l1 ++ ⟨a, k (w.respond h o)⟩ :: l2, c0, h ++ [o]⟩ := by
      simp only [cstep, get?_middle, hc0, Option.map, set_split]
    simp only [List.replicate_succ, runSched, hstep, Option.getD_some]
    exact hn

theorem pending_nonblocking {α : Type} (p : Prog α) (h : p.Pending) :
    p.Forall (fun o => o.blocksOrSpawns = false) := by
  induction p with
  | ret a => trivial
  | op o k ih =>
    by_cases ho : o = .wgDone
    · subst ho
      simp only [Prog.Pending, if_true] at h
      refine ⟨rfl, fun r => ?_⟩
      have := h r
      cases hk : k r with
      | ret a => trivial
      | op o1 k1 => rw [hk] at this; simp [Prog.isRet] at this
    · simp only [Prog.Pending, ho, if_false] at h
      refine ⟨?_, fun r => ih r (h.2 r)⟩
      have := h.1
      cases o <;> simp_all [Op.isLocal, Op.blocksOrSpawns]

theorem taskOK_nonblocking (t : Task) (h : t.OK) :
    t.body.Forall (fun o => o.blocksOrSpawns = false) := by
  rcases h with hret | hpend | ⟨k, hbody, hpend⟩
  · cases hb : t.body with
    | ret a => trivial
    | op o k => rw [hb] at hret; simp [Prog.isRet] at hret
  · exact pending_nonblocking _ hpend
  · rw [hbody]
    exact ⟨rfl, fun r => pending_nonblocking _ (hpend r)⟩

/-- All the goroutines return under a schedule that runs them one after the
other. -/
theorem tasks_finish (w : World) (l2 : List Task) :
    (∀ t ∈ l2, t.body.Forall (fun o => o.blocksOrSpawns = false)) →
    ∀ (main : Prog Unit) (l1 : List Task) (c : Int) (h : List Op),
      ∃ sched l3 c1 h1, runSched w sched ⟨main, l1 ++ l2, c, h⟩ = ⟨main, l1 ++ l3, c1, h1⟩ ∧
        ∀ t ∈ l3, t.finished = true := by
  induction l2 with
  | nil => exact fun _ main l1 c h => ⟨[], [], c, h, rfl, by simp⟩
  | cons t l2 ih =>
    intro hl main l1 c h
    obtain ⟨a, p⟩ := t
    obtain ⟨n, x, c1, h1, hn⟩ := task_finishes w p (hl _ (List.mem_cons_self _ _))
      main l1 l2 a c h
    obtain ⟨sched, l3, c2, h2, hrun, hfin⟩ :=
      ih (fun t ht => hl t (List.mem_cons_of_mem _ ht)) main (l1 ++ [⟨a, .ret x⟩]) c1 h1
    refine ⟨List.replicate n (l1.length + 1) ++ sched, ⟨a, .ret x⟩ :: l3, c2, h2, ?_, ?_⟩
    · rw [runSched_append, hn]
      simpa using hrun
    · intro t ht
      rcases List.mem_cons.1 ht with rfl | ht
      · rfl
      · exact hfin t ht

/-- From every state the concurrent strategy can be in, some continuation of the
schedule makes `BeginConcurrent` return. -/
theorem completes_from (w : World) (urls : List String) (r : Int) (b : String) (s : CState)
    (hs : Inv urls r b s) : ∃ more, (runSched w more s).main.isRet = true := by
  have hwait : ∀ s1 : CState, Inv urls r b s1 →
      s1.main = .op .wgWait (fun _ => .ret ()) →
      ∃ more, (runSched w more s1).main.isRet = true := by
    intro s1 hs1 hm
    obtain ⟨main, tasks, counter, hist⟩ := s1
    simp only at hm
    subst hm
    obtain ⟨sched, l3, c1, h1, hrun, hfin⟩ :=
      tasks_finish w tasks (fun t ht => taskOK_nonblocking t (hs1.tasksOK t ht))
        (.op .wgWait (fun _ => .ret ())) [] counter hist
    simp only [List.nil_append] at hrun
    have hinv := inv_runFrom w urls r b sched _ hs1
    rw [hrun] at hinv
    have hc := hinv.counter
    have hzero : c1 = 0 := by
      have h0 : l3.countP (fun t => !t.finished) = 0 := by
        rw [List.countP_eq_zero]
        intro t ht
        simp [hfin t ht]
      simpa [CState.unfinished, Prog.atGo, h0] using hc
    refine ⟨sched ++ [0], ?_⟩
    rw [runSched_append, hrun]
    simp [runSched, cstep, opEffect, hzero, Prog.isRet]
  rcases hs.main with ⟨i, rest, hm, _⟩ | ⟨i, url, rest, _, hm, _⟩ | ⟨hm, _, _⟩
  · obtain ⟨n, hn⟩ := main_reaches_wait w r b rest i s hm
    obtain ⟨more, hmore⟩ := hwait _ (inv_runFrom w urls r b _ s hs) hn
    exact ⟨List.replicate n 0 ++ more, by rw [runSched_append]; exact hmore⟩
  · obtain ⟨main, tasks, counter, hist⟩ := s
    simp only at hm
    subst hm
    have hstep : cstep w 0 ⟨.op (.go (scratchName (i + 1)) url b)
          (fun _ => mainAt r b (i + 1) rest), tasks, counter, hist⟩ =
        some ⟨mainAt r b (i + 1) rest,
          tasks ++ [⟨[scratchName (i + 1), url, b],
            FetchUploadAndHandleFile (scratchName (i + 1)) url b true⟩],
          counter, hist ++ [.go (scratchName (i + 1)) url b]⟩ := by
      simp [cstep, opEffect]
    have hs1 := inv_step w urls r b _ hs 0
    rw [hstep] at hs1
    simp only [Option.getD_some] at hs1
    obtain ⟨n, hn⟩ := main_reaches_wait w r b rest (i + 1)
      ⟨mainAt r b (i + 1) rest,
        tasks ++ [⟨[scratchName (i + 1), url, b],
          FetchUploadAndHandleFile (scratchName (i + 1)) url b true⟩],
        counter, hist ++ [.go (scratchName (i + 1)) url b]⟩ rfl
    obtain ⟨more, hmore⟩ := hwait _ (inv_runFrom w urls r b _ _ hs1) hn
    refine ⟨0 :: (List.replicate n 0 ++ more), ?_⟩
    simp only [runSched, hstep, Option.getD_some]
    rw [runSched_append]
    exact hmore
  · exact ⟨[], by simp [runSched, hm, Prog.isRet]⟩

theorem prefix_flatMap_sublist {α β : Type} (f : α → List β) (l1 l2 : List α)
    (h : l1 <+: l2) : (l1.flatMap f).Sublist (l2.flatMap f) := by
  obtain ⟨t, rfl⟩ := h
  rw [List.flatMap_append]
  exact List.sublist_append_left _ _

theorem finished_callsAlong (tasks : List Task) (h : ∀ t ∈ tasks, t.finished = true) :
    tasks.flatMap (fun t => t.body.callsAlong) = [] := by
  induction tasks with
  | nil => rfl
  | cons t ts ih =>
    have ht := h t (List.mem_cons_self _ _)
    have hts := ih (fun x hx => h x (List.mem_cons_of_mem _ hx))
    cases hb : t.body with
    | ret x => simp [List.flatMap_cons, hb, Prog.callsAlong, hts]
    | op o k => simp [Task.finished, hb, Prog.isRet] at ht

theorem launches_flatMap (r : Int) (b : String) (urls : List String) :
    (launchesFrom r b 0 urls).flatMap callsOfArgs =
      (toProcess r (catalog urls)).flatMap (pipelineCalls b) := by
  simp only [launchesFrom, catalog, List.flatMap_map]
  rfl

/-- C1. In the sequential strategy the calls recorded in the history of `Begin`
are, for every world, the calls of the pipelines of the catalog entries whose
ordinal is at or after the resume ordinal, each entry once, in ascending order
of ordinal: `FetchUploadAndHandleFile`, `FetchFile` and `UnzipAndUploadFiles` are
not called for an entry before the resume ordinal.  In the concurrent strategy,
under every schedule and in every state reached: the `go` statements executed
are an initial part of that list of entries; the calls of
`FetchUploadAndHandleFile`, `FetchFile` and `UnzipAndUploadFiles` made so far
are, up to order, some of the calls of the pipelines of those entries, each at
most once; when `BeginConcurrent` has returned, the `go` statements are all of
the list and the calls are, up to order, all the calls of those pipelines, each
once; and the schedule can always be continued so that `BeginConcurrent`
returns.  For the catalog of `urlA`, `urlB` with resume ordinal 2 only the
pipeline of `urlB` runs. -/
theorem C1_pipeline_runs_once_from_resume_ordinal (w : World) (DownloadURLs : List String)
    (resumeAt : Int) (bucketName : String) :
    (∀ removeFiles : Bool,
      ((Begin DownloadURLs resumeAt removeFiles bucketName).exec w []).2.filterMap callOf =
        (toProcess resumeAt (catalog DownloadURLs)).flatMap (pipelineCalls bucketName)) ∧
    (∀ sched : List Nat,
      (runSched w sched (concInit DownloadURLs resumeAt bucketName)).hist.filterMap launchOf
        <+: (toProcess resumeAt (catalog DownloadURLs)).map (pipelineArgs bucketName) ∧
      ((runSched w sched (concInit DownloadURLs resumeAt bucketName)).hist.filterMap
        callOf).Subperm
          ((toProcess resumeAt (catalog DownloadURLs)).flatMap (pipelineCalls bucketName)) ∧
      ((runSched w sched (concInit DownloadURLs resumeAt bucketName)).main.isRet = true →
        (runSched w sched (concInit DownloadURLs resumeAt bucketName)).hist.filterMap launchOf
          = (toProcess resumeAt (catalog DownloadURLs)).map (pipelineArgs bucketName) ∧
        ((runSched w sched (concInit DownloadURLs resumeAt bucketName)).hist.filterMap
          callOf).Perm
            ((toProcess resumeAt (catalog DownloadURLs)).flatMap
              (pipelineCalls bucketName))) ∧
      ∃ more : List Nat,
        (runSched w (sched ++ more) (concInit DownloadURLs resumeAt bucketName)).main.isRet
          = true) ∧
    (∀ removeFiles : Bool,
      ((Begin ["urlA", "urlB"] 2 removeFiles bucketName).exec w []).2.filterMap callOf =
        pipelineCalls bucketName (2, "urlB")) := by
  refine ⟨fun rm => beginLoop_calls w resumeAt rm bucketName DownloadURLs 0 [], ?_, ?_⟩
  · intro sched
    have hinv := inv_run w DownloadURLs resumeAt bucketName sched
    have hcalls := callsInv_run w DownloadURLs resumeAt bucketName sched
    have hdone : ∃ more, (runSched w (sched ++ more)
        (concInit DownloadURLs resumeAt bucketName)).main.isRet = true := by
      obtain ⟨more, hmore⟩ := completes_from w DownloadURLs resumeAt bucketName _ hinv
      exact ⟨more, by rw [runSched_append]; exact hmore⟩
    generalize runSched w sched (concInit DownloadURLs resumeAt bucketName) = s
      at hinv hcalls
    have hall : launchesFrom resumeAt bucketName 0 DownloadURLs =
        (toProcess resumeAt (catalog DownloadURLs)).map (pipelineArgs bucketName) := rfl
    rw [← hall, ← launches_flatMap]
    have hpre : s.tasks.map Task.args <+: launchesFrom resumeAt bucketName 0 DownloadURLs := by
      rcases hinv.main with ⟨i, rest, _, hl⟩ | ⟨i, url, rest, _, _, hl⟩ | ⟨_, hl, _⟩
      · exact ⟨_, hl⟩
      · exact ⟨_, hl⟩
      · rw [hl]
    have hrhs : s.tasks.flatMap (fun t => callsOfArgs t.args) =
        (s.tasks.map Task.args).flatMap callsOfArgs := by
      rw [List.flatMap_map]
    refine ⟨by rw [hinv.launches]; exact hpre, ?_, ?_, hdone⟩
    · have h1 : (s.hist.filterMap callOf).Sublist
          (s.hist.filterMap callOf ++ s.main.callsAlong ++
            s.tasks.flatMap (fun t => t.body.callsAlong)) := by
        rw [List.append_assoc]
        exact List.sublist_append_left _ _
      refine (h1.subperm.trans hcalls.calls.subperm).trans ?_
      rw [hrhs]
      exact (prefix_flatMap_sublist _ _ _ hpre).subperm
    · intro hret
      rcases hinv.main with ⟨i, rest, hm, _⟩ | ⟨i, url, rest, _, hm, _⟩ | ⟨hm, hl, hfin⟩
      · rw [hm] at hret
        rcases mainAt_head resumeAt bucketName rest i with ⟨h1, _⟩ | ⟨_, _, _, _, h1, _⟩ <;>
          rw [h1] at hret <;> simp [Prog.isRet] at hret
      · rw [hm] at hret
        simp [Prog.isRet] at hret
      · refine ⟨by rw [hinv.launches, hl], ?_⟩
        have hc := hcalls.calls
        rw [hm, finished_callsAlong s.tasks hfin, hrhs, hl] at hc
        simpa [Prog.callsAlong] using hc
  · intro rm
    have := beginLoop_calls w 2 rm bucketName ["urlA", "urlB"] 0 []
    simpa [toProcess, List.enumFrom_cons] using this

/-- C1 for a catalog of two archives that are not zip files, under a schedule
that runs the two goroutines in turns: `BeginConcurrent` has returned, both were
launched, and the calls made are, up to order, the three calls of each of the
two pipelines. -/
theorem C1_pipeline_runs_once_from_resume_ordinal_witness :
    (runSched worldBadZip twoTaskSchedule (concInit ["urlA", "urlB"] 1 "bkt")).main.isRet
      = true ∧
    (runSched worldBadZip twoTaskSchedule (concInit ["urlA", "urlB"] 1 "bkt")).hist.filterMap
        launchOf
      = (toProcess 1 (catalog ["urlA", "urlB"])).map (pipelineArgs "bkt") ∧
    ((runSched worldBadZip twoTaskSchedule (concInit ["urlA", "urlB"] 1 "bkt")).hist.filterMap
        callOf).Perm
      ((toProcess 1 (catalog ["urlA", "urlB"])).flatMap (pipelineCalls "bkt")) :=
  ⟨by decide,
    (C1_pipeline_runs_once_from_resume_ordinal worldBadZip ["urlA", "urlB"] 1 "bkt").2.1
      twoTaskSchedule |>.2.2.1 (by decide)⟩

end DeepLesion
